import Mathlib

/-!
Tektite: value-metadata codec and partition offsets cache.

A shallow embedding of `common/encoding.go` and `control/offsets.go`.

Conventions of the embedding:

* a Go `[]byte` is a `List Nat` whose elements stand for bytes; the conversion
  `byte(x)` is written `x % 256`;
* a Go `uint64` is a `Nat` reduced `% 2 ^ 64` wherever the source can wrap;
* a Go `int64` (and `int`, which is 64 bits wide on the supported targets) is an
  `Int`; `isInt64` says the value is in range and `wrapInt64` is the wrap-around
  of int64 arithmetic;
* a Go function that can panic or loop returns a `Result`; loops that the source
  does not bound are driven by an explicit fuel argument and yield
  `Result.outOfFuel` when the fuel is used up before the loop condition fails.
-/

namespace Tektite

/-! ## Outcomes and machine integers -/

/-- Outcome of running a Go function: a returned value, a runtime panic, or a
loop still running when the fuel ran out. -/
inductive Result (α : Type) where
  | ok (a : α)
  | panicked
  | outOfFuel
  deriving DecidableEq

deriving instance DecidableEq for Except

/-- Range of a Go `int64`. -/
def isInt64 (x : Int) : Prop := -9223372036854775808 ≤ x ∧ x < 9223372036854775808

instance (x : Int) : Decidable (isInt64 x) := by
  unfold isInt64; infer_instance

/-- Conversion `uint64(x)` of a signed value: two's complement reinterpretation. -/
def uint64 (x : Int) : Nat := (x % 18446744073709551616).toNat

/-- Conversion `int64(u)` of an unsigned 64-bit value. -/
def int64 (u : Nat) : Int :=
  if u % 18446744073709551616 < 9223372036854775808 then ((u % 18446744073709551616 : Nat) : Int)
  else ((u % 18446744073709551616 : Nat) : Int) - 18446744073709551616

/-- Wrap-around of int64 arithmetic: the representative in the int64 range. -/
def wrapInt64 (x : Int) : Int := int64 (uint64 x)

/-! ## `encoding/binary` varints (Go standard library) -/

/-- Constant `binary.MaxVarintLen64`. -/
def MaxVarintLen64 : Nat := 10

/-- Loop of `binary.AppendUvarint`: `for x >= 0x80 { buf = append(buf, byte(x)|0x80); x >>= 7 }`
followed by `append(buf, byte(x))`. A 64-bit value is below `0x80` after at most
nine shifts by 7, which bounds the recursion. -/
def AppendUvarintLoop : Nat → List Nat → Nat → List Nat
  | 0, buf, x => buf ++ [x % 256]
  | n + 1, buf, x =>
    if x ≥ 0x80 then AppendUvarintLoop n (buf ++ [(x % 256) ||| 0x80]) (x >>> 7)
    else buf ++ [x % 256]

/-- Go `binary.AppendUvarint(buf, x)` for a `uint64` x. -/
def AppendUvarint (buf : List Nat) (x : Nat) : List Nat :=
  AppendUvarintLoop (MaxVarintLen64 - 1) buf (x % 18446744073709551616)

/-- Go `binary.AppendVarint(buf, x)`: zig-zag, then unsigned varint. -/
def AppendVarint (buf : List Nat) (x : Int) : List Nat :=
  let ux := (uint64 x <<< 1) % 18446744073709551616
  let ux := if x < 0 then 18446744073709551615 - ux else ux
  AppendUvarint buf ux

/-- Loop of `binary.Uvarint`: `i` is the index of the next byte, `x` the value
accumulated so far and `s` the current shift. Returns the value and the number
of bytes read; the count is `0` when the buffer ends inside a varint and
`-(i+1)` on a 64-bit overflow. -/
def UvarintLoop : List Nat → Nat → Nat → Nat → Nat × Int
  | [], _, _, _ => (0, 0)
  | b :: rest, i, x, s =>
    if i = MaxVarintLen64 then (0, -((i : Int) + 1))
    else if b < 0x80 then
      if i = MaxVarintLen64 - 1 ∧ b > 1 then (0, -((i : Int) + 1))
      else (x ||| ((b <<< s) % 18446744073709551616), (i : Int) + 1)
    else UvarintLoop rest (i + 1) (x ||| (((b &&& 0x7f) <<< s) % 18446744073709551616)) (s + 7)

/-- Go `binary.Uvarint(buf)`. -/
def Uvarint (buf : List Nat) : Nat × Int := UvarintLoop buf 0 0 0

/-- Go `binary.Varint(buf)`: unsigned varint, then undo the zig-zag. The count is
passed through unchanged, also when it signals an error. -/
def Varint (buf : List Nat) : Int × Int :=
  let r := Uvarint buf
  let ux := r.1
  let x := int64 (ux >>> 1)
  let x := if ux &&& 1 ≠ 0 then -x - 1 else x
  (x, r.2)

/-! ## Slices -/

/-- Index expression `buff[i]`; `none` is the index-out-of-range panic. -/
def index {α : Type} (buff : List α) (i : Int) : Option α :=
  if 0 ≤ i ∧ i < buff.length then buff[i.toNat]? else none

/-- Slice expression `buff[low:]`; `none` is the bounds panic. -/
def sliceFrom (buff : List Nat) (low : Int) : Option (List Nat) :=
  if 0 ≤ low ∧ low ≤ buff.length then some (buff.drop low.toNat) else none

/-- Slice expression `buff[:high]`; `none` is the bounds panic. -/
def sliceTo (buff : List Nat) (high : Int) : Option (List Nat) :=
  if 0 ≤ high ∧ high ≤ buff.length then some (buff.take high.toNat) else none

/-! ## `common/encoding.go` -/

/-- Loop of `AppendValueMetadata`: `for i := 0; i < numValues; i++ { buff = binary.AppendVarint(buff, meta[i]) }`. -/
def appendAll : List Nat → List Int → List Nat
  | buff, [] => buff
  | buff, v :: rest => appendAll (AppendVarint buff v) rest

/-- Go `AppendValueMetadata(buff, meta...)`. -/
def AppendValueMetadata (buff : List Nat) (meta : List Int) : Result (List Nat) :=
  let start := buff.length
  let buff := appendAll buff meta
  let size := buff.length - start
  if size > 255 then .panicked
  else .ok (buff ++ [size % 256])

/-- Go `RemoveValueMetadata(buff)`. -/
def RemoveValueMetadata (buff : List Nat) : Result (List Nat) :=
  let lb : Int := buff.length
  match index buff (lb - 1) with
  | none => .panicked
  | some last =>
    let size : Int := last
    let startPos := lb - size - 1
    match sliceTo buff startPos with
    | none => .panicked
    | some r => .ok r

/-- Decoding loop shared by `ReadValueMetadata` and `ReadAndRemoveValueMetadata`:
`for pos < lb-1 { val, read := binary.Varint(buff[pos:]); values = append(values, val); pos += read }`.
One unit of fuel is spent per iteration. -/
def readLoop (buff : List Nat) (lb : Int) : Nat → Int → List Int → Result (List Int)
  | 0, pos, values => if pos < lb - 1 then .outOfFuel else .ok values
  | fuel + 1, pos, values =>
    if pos < lb - 1 then
      match sliceFrom buff pos with
      | none => .panicked
      | some s =>
        let r := Varint s
        readLoop buff lb fuel (pos + r.2) (values ++ [r.1])
    else .ok values

/-- Go `ReadValueMetadata(buff)`, with the fuel of its loop. -/
def ReadValueMetadata (fuel : Nat) (buff : List Nat) : Result (List Int) :=
  let lb : Int := buff.length
  match index buff (lb - 1) with
  | none => .panicked
  | some last =>
    let size : Int := last
    let startPos := lb - size - 1
    readLoop buff lb fuel startPos []

/-- Go `ReadAndRemoveValueMetadata(buff)`, with the fuel of its loop. -/
def ReadAndRemoveValueMetadata (fuel : Nat) (buff : List Nat) : Result (List Int × List Nat) :=
  let lb : Int := buff.length
  match index buff (lb - 1) with
  | none => .panicked
  | some last =>
    let size : Int := last
    let startPos := lb - size - 1
    match readLoop buff lb fuel startPos [] with
    | .panicked => .panicked
    | .outOfFuel => .outOfFuel
    | .ok values =>
      match sliceTo buff startPos with
      | none => .panicked
      | some r => .ok (values, r)

/-- Concatenation of the signed varint encodings of the values, in order. -/
def encodings (meta : List Int) : List Nat := (meta.map (fun v => AppendVarint [] v)).flatten

/-- Total byte length of the signed varint encodings of the values. -/
def encodedSize (meta : List Int) : Nat := (encodings meta).length

/-! ## `control/offsets.go` -/

/-- Errors returned by the offsets cache; `external` is an error handed back by
one of the two collaborators. -/
inductive Error where
  | emptyInfos
  | notStarted
  | unknownTopicID (topicID : Int)
  | partitionOffsetOutOfRange (partitionID : Int)
  | external (msg : String)
  deriving DecidableEq

/-- Go `GetOffsetInfo`. -/
structure GetOffsetInfo where
  TopicID : Int
  PartitionID : Int
  NumOffsets : Int
  deriving DecidableEq

/-- Go `TopicInfo`. -/
structure TopicInfo where
  TopicID : Int
  PartitionCount : Int
  deriving DecidableEq

/-- Go `StoredOffset`. -/
structure StoredOffset where
  partitionID : Int
  offset : Int
  deriving DecidableEq

/-- The Go map `map[int][]int64` as an association list with distinct keys. -/
abbrev TopicOffsets := List (Int × List Int)

/-- Map read `m[k]`, with the `ok` flag as the option. -/
def lookup (k : Int) : TopicOffsets → Option (List Int)
  | [] => none
  | (k', v) :: m => if k' = k then some v else lookup k m

/-- Map write `m[k] = v`. -/
def insert (k : Int) (v : List Int) : TopicOffsets → TopicOffsets
  | [] => [(k, v)]
  | (k', v') :: m => if k' = k then (k, v) :: m else (k', v') :: insert k v m

/-- Go `OffsetsCache` without its lock and its two collaborators, which are
passed to `Start`. -/
structure OffsetsCache where
  started : Bool
  topicOffsets : TopicOffsets
  deriving DecidableEq

/-- Go `NewOffsetsCache`. -/
def NewOffsetsCache : OffsetsCache := { started := false, topicOffsets := [] }

/-- Go `make([]int64, n)`; `none` is the panic on a negative length. -/
def makeSlice (n : Int) : Option (List Int) :=
  if n < 0 then none else some (List.replicate n.toNat 0)

/-- Inner loop of `Start` over the loaded offsets of one topic. Returns the
counter array as it stands when the loop ends, with the error if it ended early;
the assignment `offsetsSlice[offset.partitionID] = ...` panics on a negative index. -/
def seedOffsets : List Int → List StoredOffset → Result (List Int × Option Error)
  | offsetsSlice, [] => .ok (offsetsSlice, none)
  | offsetsSlice, offset :: rest =>
    if offset.partitionID ≥ offsetsSlice.length then
      .ok (offsetsSlice, some (.partitionOffsetOutOfRange offset.partitionID))
    else
      match index offsetsSlice offset.partitionID with
      | none => .panicked
      | some _ =>
        seedOffsets (offsetsSlice.set offset.partitionID.toNat (wrapInt64 (offset.offset + 1))) rest

/-- Outer loop of `Start` over the topics. The counter array is stored in the map
before the loader is asked, and writes to it are visible through the map. -/
def startLoop (loader : Int → Except Error (List StoredOffset)) :
    TopicOffsets → List TopicInfo → Result (TopicOffsets × Option Error)
  | m, [] => .ok (m, none)
  | m, topicInfo :: rest =>
    match makeSlice topicInfo.PartitionCount with
    | none => .panicked
    | some offsetsSlice =>
      let m1 := insert topicInfo.TopicID offsetsSlice m
      match loader topicInfo.TopicID with
      | .error err => .ok (m1, some err)
      | .ok offsets =>
        match seedOffsets offsetsSlice offsets with
        | .panicked => .panicked
        | .outOfFuel => .outOfFuel
        | .ok (seeded, some err) => .ok (insert topicInfo.TopicID seeded m1, some err)
        | .ok (seeded, none) => startLoop loader (insert topicInfo.TopicID seeded m1) rest

/-- Go `(*OffsetsCache).Start`. `provider` is the answer of
`topicInfoProvider.GetAllTopics()` and `loader` the function
`partitionOffsetLoader.LoadOffsetsForTopic`, taken to answer a topic ID the same
way each time it is asked during the call. Returns the cache after the call and
the returned error (`none` for `nil`). -/
def Start (provider : Except Error (List TopicInfo))
    (loader : Int → Except Error (List StoredOffset)) (o : OffsetsCache) :
    Result (OffsetsCache × Option Error) :=
  if o.started then .ok (o, none)
  else
    match provider with
    | .error err => .ok (o, some err)
    | .ok topicInfos =>
      match startLoop loader o.topicOffsets topicInfos with
      | .panicked => .panicked
      | .outOfFuel => .outOfFuel
      | .ok (m, some err) => .ok ({ o with topicOffsets := m }, some err)
      | .ok (m, none) => .ok ({ started := true, topicOffsets := m }, none)

/-- Go `(*OffsetsCache).getOffset`: the panic on `NumOffsets < 1`, the topic
lookup, then `atomic.AddInt64(&offsets[PartitionID], n) - n` in int64 arithmetic. -/
def getOffset (m : TopicOffsets) (info : GetOffsetInfo) : Result (TopicOffsets × Except Error Int) :=
  if info.NumOffsets < 1 then .panicked
  else
    match lookup info.TopicID m with
    | none => .ok (m, .error (.unknownTopicID info.TopicID))
    | some offsets =>
      let numOffsets := info.NumOffsets
      match index offsets info.PartitionID with
      | none => .panicked
      | some cur =>
        let added := wrapInt64 (cur + numOffsets)
        let offset := wrapInt64 (added - numOffsets)
        .ok (insert info.TopicID (offsets.set info.PartitionID.toNat added) m, .ok offset)

/-- Loop of `GetOffsets`: `for i, id := range infos { off, err := o.getOffset(id); ...; res[i] = off }`. -/
def getOffsetsLoop : TopicOffsets → List GetOffsetInfo → Nat → List Int →
    Result (TopicOffsets × Except Error (List Int))
  | m, [], _, res => .ok (m, .ok res)
  | m, id :: rest, i, res =>
    match getOffset m id with
    | .panicked => .panicked
    | .outOfFuel => .outOfFuel
    | .ok (m', .error err) => .ok (m', .error err)
    | .ok (m', .ok off) => getOffsetsLoop m' rest (i + 1) (res.set i off)

/-- Go `(*OffsetsCache).GetOffsets`. Returns the cache after the call and either
the offsets or the error. -/
def GetOffsets (o : OffsetsCache) (infos : List GetOffsetInfo) :
    Result (OffsetsCache × Except Error (List Int)) :=
  if infos.length = 0 then .ok (o, .error .emptyInfos)
  else if !o.started then .ok (o, .error .notStarted)
  else
    match getOffsetsLoop o.topicOffsets infos 0 (List.replicate infos.length 0) with
    | .panicked => .panicked
    | .outOfFuel => .outOfFuel
    | .ok (m, r) => .ok ({ o with topicOffsets := m }, r)

/-- Counter of a (topic, partition) pair, if the cache has one. -/
def counter (m : TopicOffsets) (topicID partitionID : Int) : Option Int :=
  match lookup topicID m with
  | none => none
  | some offsets => index offsets partitionID

/-- Sum of `NumOffsets` over the requests of a list that name the given
(topic, partition) pair. -/
def sumFor (infos : List GetOffsetInfo) (topicID partitionID : Int) : Int :=
  ((infos.filter (fun r => r.TopicID = topicID ∧ r.PartitionID = partitionID)).map
    (fun r => r.NumOffsets)).sum

/-- A sequence of `GetOffsets` calls on one cache, in the order in which they
take effect. A call with a single request performs a single atomic add, so every
concurrent execution of such calls is one of these sequences. -/
def runCalls : OffsetsCache → List (List GetOffsetInfo) →
    Result (OffsetsCache × List (Except Error (List Int)))
  | o, [] => .ok (o, [])
  | o, infos :: rest =>
    match GetOffsets o infos with
    | .panicked => .panicked
    | .outOfFuel => .outOfFuel
    | .ok (o', r) =>
      match runCalls o' rest with
      | .panicked => .panicked
      | .outOfFuel => .outOfFuel
      | .ok (o2, rs) => .ok (o2, r :: rs)

/-- Offset of the last entry of a loader answer that names the partition. -/
def lastStored : List StoredOffset → Int → Option Int
  | [], _ => none
  | so :: rest, p =>
    match lastStored rest p with
    | some v => some v
    | none => if so.partitionID = p then some so.offset else none

/-- Every counter of the map holds an int64 value. -/
def countersInt64 (m : TopicOffsets) : Prop :=
  ∀ t p c, counter m t p = some c → isInt64 c

/-! ## Varint lemmas -/

set_option maxRecDepth 100000 in
theorem byte_or_0x80 (x : Nat) : (x % 256) ||| 0x80 = x % 128 + 128 := by
  have h : ∀ y : Nat, y < 256 → y ||| 0x80 = y % 128 + 128 := by decide
  rw [h _ (Nat.mod_lt _ (by norm_num))]
  omega

theorem byte_and_0x7f (b : Nat) : b &&& 0x7f = b % 128 :=
  Nat.and_pow_two_sub_one_eq_mod b 7

theorem AppendUvarintLoop_append (n : Nat) : ∀ (buf : List Nat) (x : Nat),
    AppendUvarintLoop n buf x = buf ++ AppendUvarintLoop n [] x := by
  induction n with
  | zero => intro buf x; simp [AppendUvarintLoop]
  | succ n ih =>
    intro buf x
    simp only [AppendUvarintLoop]
    split
    · rw [ih (buf ++ _), ih ([] ++ _)]; simp
    · simp

theorem AppendUvarintLoop_length_pos (n : Nat) (x : Nat) :
    1 ≤ (AppendUvarintLoop n [] x).length ∧ (AppendUvarintLoop n [] x).length ≤ n + 1 := by
  induction n generalizing x with
  | zero => simp [AppendUvarintLoop]
  | succ n ih =>
    simp only [AppendUvarintLoop]
    split
    · rw [AppendUvarintLoop_append]
      have := ih (x >>> 7)
      simp only [List.nil_append, List.length_append, List.length_singleton]
      omega
    · simp

theorem or_shift_eq_add (acc b s : Nat) (h : acc < 2 ^ s) :
    acc ||| (b <<< s) = acc + b * 2 ^ s := by
  rw [Nat.shiftLeft_eq, Nat.or_comm, Nat.mul_comm b, ← Nat.mul_add_lt_is_or h, Nat.add_comm]

theorem or_shift_mod_eq_add (acc b s : Nat) (h : acc < 2 ^ s)
    (hb : b * 2 ^ s < 18446744073709551616) :
    acc ||| ((b <<< s) % 18446744073709551616) = acc + b * 2 ^ s := by
  have h1 : (b <<< s) % 18446744073709551616 = b <<< s := by
    rw [Nat.shiftLeft_eq]; exact Nat.mod_eq_of_lt hb
  rw [h1, or_shift_eq_add _ _ _ h]

theorem top_group_le_one (X : Nat) (hX : X < 18446744073709551616) : X / 2 ^ (7 * 9) ≤ 1 := by
  have : X / 2 ^ (7 * 9) < 2 := by
    rw [Nat.div_lt_iff_lt_mul (by positivity)]; norm_num; omega
  omega

/-- Last byte of a varint: a group below `0x80` at index `i ≤ 9` ends the decoding. -/
theorem UvarintLoop_last (i X : Nat) (rest : List Nat)
    (hX : X < 18446744073709551616) (hi : i ≤ 9) (hlt : X / 2 ^ (7 * i) < 0x80) :
    UvarintLoop ((X / 2 ^ (7 * i)) :: rest) i (X % 2 ^ (7 * i)) (7 * i) = (X, (i : Int) + 1) := by
  have hacc : X % 2 ^ (7 * i) < 2 ^ (7 * i) := Nat.mod_lt _ (by positivity)
  have hle : X / 2 ^ (7 * i) * 2 ^ (7 * i) ≤ X := Nat.div_mul_le_self _ _
  have hsplit := Nat.mod_add_div X (2 ^ (7 * i))
  have hi10 : ¬ (i = MaxVarintLen64) := by simp only [MaxVarintLen64]; omega
  have h3 : ¬ (i = MaxVarintLen64 - 1 ∧ X / 2 ^ (7 * i) > 1) := by
    rintro ⟨h9, hgt⟩
    simp only [MaxVarintLen64] at h9
    have hi9 : i = 9 := by omega
    subst hi9
    have := top_group_le_one X hX
    omega
  unfold UvarintLoop
  rw [if_neg hi10, if_pos hlt, if_neg h3, or_shift_mod_eq_add _ _ _ hacc (by omega)]
  rw [Nat.mul_comm (X / 2 ^ (7 * i)) (2 ^ (7 * i)), hsplit]

/-- Decoding the bytes produced by the encoder loop, from byte index `i` on,
rebuilds the 64-bit value `X` whose low `7*i` bits are already accumulated. -/
theorem UvarintLoop_AppendUvarintLoop (n : Nat) : ∀ (i X : Nat) (rest : List Nat),
    X < 18446744073709551616 → i ≤ 9 → 9 ≤ n + i →
    UvarintLoop (AppendUvarintLoop n [] (X / 2 ^ (7 * i)) ++ rest) i (X % 2 ^ (7 * i)) (7 * i)
      = (X, (i : Int) + ((AppendUvarintLoop n [] (X / 2 ^ (7 * i))).length : Nat)) := by
  induction n with
  | zero =>
    intro i X rest hX hi hn
    have hi9 : i = 9 := by omega
    subst hi9
    have hx := top_group_le_one X hX
    have hmod : X / 2 ^ (7 * 9) % 256 = X / 2 ^ (7 * 9) := Nat.mod_eq_of_lt (by omega)
    have henc : AppendUvarintLoop 0 [] (X / 2 ^ (7 * 9)) = [X / 2 ^ (7 * 9)] := by
      simp only [AppendUvarintLoop, List.nil_append, hmod]
    rw [henc, List.singleton_append, UvarintLoop_last 9 X rest hX hi (by omega)]
    simp
  | succ n ih =>
    intro i X rest hX hi hn
    have hacc : X % 2 ^ (7 * i) < 2 ^ (7 * i) := Nat.mod_lt _ (by positivity)
    have hle : X / 2 ^ (7 * i) * 2 ^ (7 * i) ≤ X := Nat.div_mul_le_self _ _
    have hi10 : ¬ (i = MaxVarintLen64) := by simp only [MaxVarintLen64]; omega
    by_cases hge : X / 2 ^ (7 * i) ≥ 0x80
    · have hi8 : i ≤ 8 := by
        by_contra hcon
        have hi9 : i = 9 := by omega
        subst hi9
        have := top_group_le_one X hX
        omega
      have hpow : 2 ^ (7 * (i + 1)) = 2 ^ (7 * i) * 128 := by
        rw [Nat.mul_add, pow_add]; norm_num
      have hdiv : (X / 2 ^ (7 * i)) >>> 7 = X / 2 ^ (7 * (i + 1)) := by
        rw [Nat.shiftRight_eq_div_pow, hpow, Nat.div_div_eq_div_mul]
      have henc : AppendUvarintLoop (n + 1) [] (X / 2 ^ (7 * i))
          = (X / 2 ^ (7 * i) % 128 + 128) :: AppendUvarintLoop n [] (X / 2 ^ (7 * (i + 1))) := by
        simp only [AppendUvarintLoop]
        rw [if_pos hge, AppendUvarintLoop_append, byte_or_0x80, hdiv]
        rfl
      have hb : ¬ (X / 2 ^ (7 * i) % 128 + 128 < 0x80) := by omega
      have hm : (X / 2 ^ (7 * i) % 128 + 128) % 128 = X / 2 ^ (7 * i) % 128 := by omega
      have hlow : X / 2 ^ (7 * i) % 128 * 2 ^ (7 * i) ≤ X := by
        calc X / 2 ^ (7 * i) % 128 * 2 ^ (7 * i)
            ≤ X / 2 ^ (7 * i) * 2 ^ (7 * i) := Nat.mul_le_mul_right _ (Nat.mod_le _ _)
          _ ≤ X := hle
      have hacc2 : X % 2 ^ (7 * i) ||| (((X / 2 ^ (7 * i) % 128) <<< (7 * i)) % 18446744073709551616)
          = X % 2 ^ (7 * (i + 1)) := by
        rw [or_shift_mod_eq_add _ _ _ hacc (by omega), hpow, Nat.mod_mul,
          Nat.mul_comm (X / 2 ^ (7 * i) % 128) (2 ^ (7 * i))]
      have h7 : 7 * i + 7 = 7 * (i + 1) := by ring
      rw [henc, List.cons_append]
      unfold UvarintLoop
      rw [if_neg hi10, if_neg hb, byte_and_0x7f, hm, hacc2, h7,
        ih (i + 1) X rest hX (by omega) (by omega)]
      simp only [List.length_cons, Prod.mk.injEq, true_and]
      push_cast
      ring
    · have hlt : X / 2 ^ (7 * i) < 0x80 := by omega
      have hmod : X / 2 ^ (7 * i) % 256 = X / 2 ^ (7 * i) := Nat.mod_eq_of_lt (by omega)
      have henc : AppendUvarintLoop (n + 1) [] (X / 2 ^ (7 * i)) = [X / 2 ^ (7 * i)] := by
        simp only [AppendUvarintLoop]
        rw [if_neg hge, hmod]
        rfl
      rw [henc, List.singleton_append, UvarintLoop_last i X rest hX hi hlt]
      simp

theorem AppendUvarint_append (buf : List Nat) (x : Nat) :
    AppendUvarint buf x = buf ++ AppendUvarint [] x := by
  unfold AppendUvarint
  exact AppendUvarintLoop_append _ _ _

theorem AppendUvarint_length (x : Nat) :
    1 ≤ (AppendUvarint [] x).length ∧ (AppendUvarint [] x).length ≤ 10 := by
  unfold AppendUvarint
  exact AppendUvarintLoop_length_pos _ _

/-- Unsigned varint round trip: decoding what `AppendUvarint` wrote returns the
value and the number of bytes written, whatever follows. -/
theorem Uvarint_AppendUvarint (x : Nat) (hx : x < 18446744073709551616) (rest : List Nat) :
    Uvarint (AppendUvarint [] x ++ rest) = (x, (((AppendUvarint [] x).length : Nat) : Int)) := by
  have h := UvarintLoop_AppendUvarintLoop 9 0 x rest hx (by omega) (by omega)
  simp only [Nat.mul_zero, pow_zero, Nat.div_one, Nat.mod_one, Nat.cast_zero, zero_add] at h
  unfold Uvarint AppendUvarint
  simp only [MaxVarintLen64, Nat.mod_eq_of_lt hx]
  exact h

theorem AppendVarint_append (buf : List Nat) (x : Int) :
    AppendVarint buf x = buf ++ AppendVarint [] x := by
  unfold AppendVarint
  exact AppendUvarint_append _ _

theorem AppendVarint_length (x : Int) :
    1 ≤ (AppendVarint [] x).length ∧ (AppendVarint [] x).length ≤ 10 := by
  unfold AppendVarint
  exact AppendUvarint_length _

/-- Signed varint round trip for every int64 value. -/
theorem Varint_AppendVarint (x : Int) (hx : isInt64 x) (rest : List Nat) :
    Varint (AppendVarint [] x ++ rest) = (x, (((AppendVarint [] x).length : Nat) : Int)) := by
  unfold isInt64 at hx
  obtain ⟨hlo, hhi⟩ := hx
  unfold Varint AppendVarint
  by_cases hneg : x < 0
  · have hux : (uint64 x <<< 1) % 18446744073709551616 = (18446744073709551616 + 2 * x).toNat := by
      unfold uint64
      rw [Nat.shiftLeft_eq]
      omega
    simp only [if_pos hneg, hux]
    rw [Uvarint_AppendUvarint _ (by omega)]
    simp only [Nat.shiftRight_eq_div_pow, Nat.and_one_is_mod]
    have hodd : (18446744073709551615 - (18446744073709551616 + 2 * x).toNat) % 2 ≠ 0 := by omega
    rw [if_pos hodd]
    unfold int64
    simp only [Prod.mk.injEq, and_true]
    split <;> omega
  · have hux : (uint64 x <<< 1) % 18446744073709551616 = (2 * x).toNat := by
      unfold uint64
      rw [Nat.shiftLeft_eq]
      omega
    simp only [if_neg hneg, hux]
    rw [Uvarint_AppendUvarint _ (by omega)]
    simp only [Nat.shiftRight_eq_div_pow, Nat.and_one_is_mod]
    have heven : ¬ ((2 * x).toNat % 2 ≠ 0) := by omega
    rw [if_neg heven]
    unfold int64
    simp only [Prod.mk.injEq, and_true]
    split <;> omega

/-! ## Codec lemmas -/

theorem encodings_cons (v : Int) (meta : List Int) :
    encodings (v :: meta) = AppendVarint [] v ++ encodings meta := by
  simp [encodings]

theorem appendAll_eq (meta : List Int) : ∀ buff : List Nat,
    appendAll buff meta = buff ++ encodings meta := by
  induction meta with
  | nil => intro buff; simp [appendAll, encodings]
  | cons v rest ih =>
    intro buff
    rw [appendAll, ih, AppendVarint_append, encodings_cons, List.append_assoc]

theorem AppendValueMetadata_eq (buff : List Nat) (meta : List Int) :
    AppendValueMetadata buff meta =
      if encodedSize meta > 255 then .panicked
      else .ok (buff ++ encodings meta ++ [encodedSize meta]) := by
  unfold AppendValueMetadata
  simp only [appendAll_eq, List.length_append, Nat.add_sub_cancel_left]
  unfold encodedSize
  split
  · rfl
  · rw [Nat.mod_eq_of_lt (by omega)]

theorem index_last (pre : List Nat) (b : Nat) :
    index (pre ++ [b]) (((pre ++ [b]).length : Nat) - 1) = some b := by
  unfold index
  have h1 : (((pre ++ [b]).length : Nat) : Int) - 1 = (pre.length : Nat) := by
    simp
  rw [h1]
  have h2 : (0 : Int) ≤ (pre.length : Nat) ∧ ((pre.length : Nat) : Int) < ((pre ++ [b]).length : Nat) := by
    simp
  rw [if_pos h2, Int.toNat_ofNat]
  simp

/-- The decoding loop, started at the first byte of the encodings of `meta`, with
at least one unit of fuel per value, returns the values read so far followed by
`meta`. -/
theorem readLoop_encodings (meta : List Int) : ∀ (pre : List Nat) (b : Nat) (fuel : Nat)
    (acc : List Int), (∀ v ∈ meta, isInt64 v) → meta.length ≤ fuel →
    readLoop (pre ++ encodings meta ++ [b]) (((pre ++ encodings meta ++ [b]).length : Nat))
      fuel (pre.length : Nat) acc = .ok (acc ++ meta) := by
  induction meta with
  | nil =>
    intro pre b fuel acc _ _
    have hc : ¬ (((pre.length : Nat) : Int) < ((pre ++ encodings [] ++ [b]).length : Nat) - 1) := by
      simp [encodings]
    cases fuel with
    | zero => simp only [readLoop, if_neg hc, List.append_nil]
    | succ f => simp only [readLoop, if_neg hc, List.append_nil]
  | cons v rest ih =>
    intro pre b fuel acc hv hf
    have hlen := AppendVarint_length v
    have hc : ((pre.length : Nat) : Int) < ((pre ++ encodings (v :: rest) ++ [b]).length : Nat) - 1 := by
      simp only [encodings_cons, List.length_append, List.length_singleton]
      push_cast
      omega
    cases fuel with
    | zero => simp at hf
    | succ f =>
      have hslice : sliceFrom (pre ++ encodings (v :: rest) ++ [b]) (pre.length : Nat)
          = some (AppendVarint [] v ++ (encodings rest ++ [b])) := by
        unfold sliceFrom
        have h2 : (0 : Int) ≤ (pre.length : Nat) ∧
            ((pre.length : Nat) : Int) ≤ ((pre ++ encodings (v :: rest) ++ [b]).length : Nat) := by
          simp only [List.length_append]
          push_cast
          omega
        rw [if_pos h2, Int.toNat_ofNat, encodings_cons]
        simp only [List.append_assoc, List.drop_left]
      simp only [readLoop, if_pos hc, hslice]
      rw [Varint_AppendVarint v (hv v (List.mem_cons_self _ _))]
      have hbuf : pre ++ encodings (v :: rest) ++ [b]
          = (pre ++ AppendVarint [] v) ++ encodings rest ++ [b] := by
        rw [encodings_cons]; simp only [List.append_assoc]
      have hpos : ((pre.length : Nat) : Int) + (((AppendVarint [] v).length : Nat) : Int)
          = (((pre ++ AppendVarint [] v).length : Nat) : Int) := by
        simp only [List.length_append]; push_cast; rfl
      simp only [hpos, hbuf]
      rw [ih (pre ++ AppendVarint [] v) b f (acc ++ [v])
        (fun w hw => hv w (List.mem_cons_of_mem _ hw)) (by simpa using hf)]
      simp

theorem startPos_of_append (buf : List Nat) (meta : List Int) :
    (((buf ++ encodings meta ++ [encodedSize meta]).length : Nat) : Int)
      - ((encodedSize meta : Nat) : Int) - 1 = ((buf.length : Nat) : Int) := by
  simp only [List.length_append, List.length_singleton, encodedSize]
  push_cast
  omega

theorem index_some_length {buff : List Nat} {i : Int} {b : Nat} (h : index buff i = some b) :
    0 ≤ i ∧ i < buff.length := by
  unfold index at h
  split at h
  · assumption
  · simp at h

/-- A decoding loop started at a negative position never returns: it panics on
the slice expression, or is out of fuel before trying. -/
theorem readLoop_neg_pos (buff : List Nat) (lb : Int) (fuel : Nat) (pos : Int)
    (acc : List Int) (hlb : 1 ≤ lb) (hpos : pos < 0) :
    readLoop buff lb fuel pos acc = .outOfFuel ∨ readLoop buff lb fuel pos acc = .panicked := by
  have hc : pos < lb - 1 := by omega
  cases fuel with
  | zero => left; simp only [readLoop, if_pos hc]
  | succ f =>
    right
    have hs : sliceFrom buff pos = none := by
      unfold sliceFrom
      rw [if_neg (by omega)]
    simp only [readLoop, if_pos hc, hs]

theorem sliceTo_isSome (buff : List Nat) (high : Int) (h0 : 0 ≤ high) (h1 : high ≤ buff.length) :
    sliceTo buff high = some (buff.take high.toNat) := by
  unfold sliceTo
  rw [if_pos ⟨h0, h1⟩]

theorem sliceTo_neg (buff : List Nat) (high : Int) (h0 : high < 0) :
    sliceTo buff high = none := by
  unfold sliceTo
  rw [if_neg (by omega)]

/-! ## Offsets cache lemmas -/

theorem wrapInt64_isInt64 (x : Int) : isInt64 (wrapInt64 x) := by
  unfold isInt64 wrapInt64 int64 uint64
  split <;> omega

theorem wrapInt64_of_isInt64 (x : Int) (h : isInt64 x) : wrapInt64 x = x := by
  unfold isInt64 at h
  unfold wrapInt64 int64 uint64
  split <;> omega

theorem wrapInt64_add_left (a b : Int) : wrapInt64 (wrapInt64 a + b) = wrapInt64 (a + b) := by
  unfold wrapInt64 int64 uint64
  split <;> split <;> omega

theorem wrapInt64_add_sub (c n : Int) (h : isInt64 c) :
    wrapInt64 (wrapInt64 (c + n) - n) = c := by
  unfold isInt64 at h
  unfold wrapInt64 int64 uint64
  split <;> split <;> omega

theorem lookup_insert (k k' : Int) (v : List Int) (m : TopicOffsets) :
    lookup k' (insert k v m) = if k = k' then some v else lookup k' m := by
  induction m with
  | nil => simp [insert, lookup]
  | cons e m ih =>
    obtain ⟨k0, v0⟩ := e
    simp only [insert]
    by_cases h0 : k0 = k
    · subst h0
      simp only [if_true, lookup]
      split <;> rfl
    · simp only [if_neg h0, lookup, ih]
      by_cases h1 : k0 = k'
      · subst h1
        simp [h0, Ne.symm h0]
      · simp [h1]

theorem index_eq_some_iff {α : Type} (l : List α) (i : Int) (a : α) :
    index l i = some a ↔ 0 ≤ i ∧ l[i.toNat]? = some a := by
  unfold index
  constructor
  · intro h
    split at h
    · exact ⟨by omega, h⟩
    · simp at h
  · rintro ⟨h0, h1⟩
    have hlt : i.toNat < l.length := by
      rcases List.getElem?_eq_some_iff.mp h1 with ⟨hl, _⟩
      exact hl
    rw [if_pos ⟨h0, by omega⟩, h1]

theorem index_set {α : Type} (l : List α) (i j : Int) (v c : α) (hi : index l i = some c) :
    index (l.set i.toNat v) j = if j = i then some v else index l j := by
  have hi0 := (index_eq_some_iff l i c).mp hi
  have hlt : i.toNat < l.length := by
    rcases List.getElem?_eq_some_iff.mp hi0.2 with ⟨hl, _⟩
    exact hl
  unfold index
  simp only [List.length_set]
  by_cases hj : 0 ≤ j ∧ j < l.length
  · rw [if_pos hj, if_pos hj]
    by_cases hji : j = i
    · subst hji
      simp [hlt]
    · rw [if_neg hji, List.getElem?_set_ne (by omega)]
  · rw [if_neg hj, if_neg hj]
    have hji : ¬ j = i := by
      intro h; subst h; omega
    rw [if_neg hji]

/-- Counters after a write to one counter of a known topic. -/
theorem counter_insert_set (m : TopicOffsets) (t p : Int) (a : List Int) (c v : Int)
    (ha : lookup t m = some a) (hc : index a p = some c) (t' p' : Int) :
    counter (insert t (a.set p.toNat v) m) t' p'
      = if t' = t ∧ p' = p then some v else counter m t' p' := by
  unfold counter
  rw [lookup_insert]
  by_cases ht : t = t'
  · subst ht
    simp only [if_true, true_and, ha]
    exact index_set a p p' v c hc
  · rw [if_neg ht]
    have : ¬ (t' = t ∧ p' = p) := fun h => ht h.1.symm
    rw [if_neg this]

theorem counter_eq_some (m : TopicOffsets) (t p c : Int) (h : counter m t p = some c) :
    ∃ a, lookup t m = some a ∧ index a p = some c := by
  unfold counter at h
  cases hl : lookup t m with
  | none => simp [hl] at h
  | some a => exact ⟨a, rfl, by simpa [hl] using h⟩

/-- One atomic reservation on an existing counter: the previous value comes back
and the counter grows by `NumOffsets` in int64 arithmetic; no other counter moves. -/
theorem getOffset_ok (m : TopicOffsets) (info : GetOffsetInfo) (c : Int)
    (hn : 1 ≤ info.NumOffsets) (hc : counter m info.TopicID info.PartitionID = some c) :
    ∃ m', getOffset m info = .ok (m', .ok (wrapInt64 (wrapInt64 (c + info.NumOffsets) - info.NumOffsets))) ∧
      ∀ t p, counter m' t p =
        if t = info.TopicID ∧ p = info.PartitionID then some (wrapInt64 (c + info.NumOffsets))
        else counter m t p := by
  obtain ⟨a, ha, hi⟩ := counter_eq_some m _ _ c hc
  refine ⟨insert info.TopicID (a.set info.PartitionID.toNat (wrapInt64 (c + info.NumOffsets))) m, ?_, ?_⟩
  · unfold getOffset
    rw [if_neg (by omega)]
    simp only [ha, hi]
  · intro t p
    exact counter_insert_set m _ _ a c _ ha hi t p

theorem sumFor_nil (t p : Int) : sumFor [] t p = 0 := by
  simp [sumFor]

theorem sumFor_cons (r : GetOffsetInfo) (rest : List GetOffsetInfo) (t p : Int) :
    sumFor (r :: rest) t p
      = (if r.TopicID = t ∧ r.PartitionID = p then r.NumOffsets else 0) + sumFor rest t p := by
  unfold sumFor
  by_cases h : r.TopicID = t ∧ r.PartitionID = p
  · simp [List.filter_cons, h]
  · simp [List.filter_cons, h]

/-- The loop of `GetOffsets` on requests that all name existing counters: it
returns, slot `i + j` of the result holds the counter of request `j` advanced by
the earlier requests naming it, and every counter ends advanced by the requests
naming it. -/
theorem getOffsetsLoop_ok (infos : List GetOffsetInfo) : ∀ (m : TopicOffsets) (i : Nat)
    (res : List Int),
    (∀ r ∈ infos, 1 ≤ r.NumOffsets ∧ ∃ c, counter m r.TopicID r.PartitionID = some c) →
    countersInt64 m → res.length = i + infos.length →
    ∃ m' out, getOffsetsLoop m infos i res = .ok (m', .ok out) ∧
      out.length = res.length ∧
      (∀ k, k < i → out[k]? = res[k]?) ∧
      (∀ j r c, infos[j]? = some r → counter m r.TopicID r.PartitionID = some c →
        out[i + j]? = some (wrapInt64 (c + sumFor (infos.take j) r.TopicID r.PartitionID))) ∧
      (∀ t p, counter m' t p = (counter m t p).map (fun c => wrapInt64 (c + sumFor infos t p))) ∧
      countersInt64 m' := by
  induction infos with
  | nil =>
    intro m i res _ hint _
    refine ⟨m, res, rfl, rfl, fun _ _ => rfl, ?_, ?_, hint⟩
    · intro j r c hj
      simp at hj
    · intro t p
      cases hc : counter m t p with
      | none => rfl
      | some c =>
        simp only [Option.map_some', sumFor_nil, add_zero]
        rw [wrapInt64_of_isInt64 c (hint t p c hc)]
  | cons r rest ih =>
    intro m i res hvalid hint hlen
    obtain ⟨hn, c, hc⟩ := hvalid r (List.mem_cons_self _ _)
    obtain ⟨m1, hget, hm1⟩ := getOffset_ok m r c hn hc
    have hcint := hint _ _ c hc
    rw [wrapInt64_add_sub c _ hcint] at hget
    have hvalid1 : ∀ r' ∈ rest, 1 ≤ r'.NumOffsets ∧
        ∃ c', counter m1 r'.TopicID r'.PartitionID = some c' := by
      intro r' hr'
      obtain ⟨hn', c', hc'⟩ := hvalid r' (List.mem_cons_of_mem _ hr')
      refine ⟨hn', ?_⟩
      rw [hm1]
      split
      · exact ⟨_, rfl⟩
      · exact ⟨c', hc'⟩
    have hint1 : countersInt64 m1 := by
      intro t p c' hc'
      rw [hm1] at hc'
      split at hc'
      · cases hc'
        exact wrapInt64_isInt64 _
      · exact hint t p c' hc'
    have hlen1 : (res.set i c).length = (i + 1) + rest.length := by
      simp only [List.length_set, hlen, List.length_cons]; omega
    obtain ⟨m', out, hloop, hlenout, hpre, hres, hcnt, hint'⟩ :=
      ih m1 (i + 1) (res.set i c) hvalid1 hint1 hlen1
    refine ⟨m', out, ?_, ?_, ?_, ?_, ?_, hint'⟩
    · simp only [getOffsetsLoop, hget]
      exact hloop
    · rw [hlenout, List.length_set]
    · intro k hk
      rw [hpre k (by omega), List.getElem?_set_ne (by omega)]
    · intro j r' c' hj hc'
      cases j with
      | zero =>
        simp only [List.getElem?_cons_zero, Option.some.injEq] at hj
        subst hj
        rw [hc] at hc'
        cases hc'
        have hilt : i < res.length := by
          simp only [List.length_cons] at hlen; omega
        rw [Nat.add_zero, hpre i (by omega), List.getElem?_set_self hilt]
        simp only [List.take_zero, sumFor_nil, add_zero]
        rw [wrapInt64_of_isInt64 c hcint]
      | succ j' =>
        simp only [List.getElem?_cons_succ] at hj
        have hidx : i + (j' + 1) = (i + 1) + j' := by omega
        rw [hidx, List.take_succ_cons, sumFor_cons]
        by_cases hsame : r'.TopicID = r.TopicID ∧ r'.PartitionID = r.PartitionID
        · have hc1 : counter m1 r'.TopicID r'.PartitionID = some (wrapInt64 (c + r.NumOffsets)) := by
            rw [hm1, if_pos hsame]
          have hcc : c' = c := by
            rw [hsame.1, hsame.2, hc] at hc'
            cases hc'; rfl
          subst hcc
          rw [hres j' r' _ hj hc1, if_pos ⟨hsame.1.symm, hsame.2.symm⟩, wrapInt64_add_left,
            add_assoc]
        · have hc1 : counter m1 r'.TopicID r'.PartitionID = some c' := by
            rw [hm1, if_neg hsame, hc']
          have hne : ¬ (r.TopicID = r'.TopicID ∧ r.PartitionID = r'.PartitionID) :=
            fun h => hsame ⟨h.1.symm, h.2.symm⟩
          rw [hres j' r' _ hj hc1, if_neg hne, zero_add]
    · intro t p
      rw [hcnt, hm1, sumFor_cons]
      by_cases hsame : t = r.TopicID ∧ p = r.PartitionID
      · rw [if_pos hsame, if_pos ⟨hsame.1.symm, hsame.2.symm⟩, hsame.1, hsame.2, hc]
        simp only [Option.map_some', Option.some.injEq]
        rw [wrapInt64_add_left, add_assoc]
      · have hne : ¬ (r.TopicID = t ∧ r.PartitionID = p) :=
          fun h => hsame ⟨h.1.symm, h.2.symm⟩
        rw [if_neg hsame, if_neg hne, zero_add]

/-- A request is well formed for a map: positive count, loaded topic, partition
index inside the topic's counter array. -/
theorem counter_of_valid (m : TopicOffsets) (r : GetOffsetInfo)
    (h : ∃ a, lookup r.TopicID m = some a ∧ 0 ≤ r.PartitionID ∧ r.PartitionID < a.length) :
    ∃ c, counter m r.TopicID r.PartitionID = some c := by
  obtain ⟨a, ha, h0, h1⟩ := h
  have hlt : r.PartitionID.toNat < a.length := by omega
  refine ⟨a[r.PartitionID.toNat], ?_⟩
  unfold counter
  simp only [ha]
  rw [index_eq_some_iff]
  exact ⟨h0, List.getElem?_eq_getElem hlt⟩

/-- Behaviour of `GetOffsets` on a started cache and a non-empty list of well-formed
requests. -/
theorem GetOffsets_ok (o : OffsetsCache) (infos : List GetOffsetInfo)
    (hstarted : o.started = true) (hne : infos ≠ [])
    (hvalid : ∀ r ∈ infos, 1 ≤ r.NumOffsets ∧
      ∃ c, counter o.topicOffsets r.TopicID r.PartitionID = some c)
    (hint : countersInt64 o.topicOffsets) :
    ∃ o' res, GetOffsets o infos = .ok (o', .ok res) ∧
      res.length = infos.length ∧
      (∀ i r c, infos[i]? = some r → counter o.topicOffsets r.TopicID r.PartitionID = some c →
        res[i]? = some (wrapInt64 (c + sumFor (infos.take i) r.TopicID r.PartitionID))) ∧
      (∀ t p, counter o'.topicOffsets t p
        = (counter o.topicOffsets t p).map (fun c => wrapInt64 (c + sumFor infos t p))) ∧
      o'.started = true := by
  obtain ⟨m', out, hloop, hlen, _, hres, hcnt, _⟩ :=
    getOffsetsLoop_ok infos o.topicOffsets 0 (List.replicate infos.length 0) hvalid hint (by simp)
  refine ⟨{ o with topicOffsets := m' }, out, ?_, ?_, ?_, hcnt, hstarted⟩
  · unfold GetOffsets
    have h0 : ¬ (infos.length = 0) := by
      intro h; exact hne (List.length_eq_zero.mp h)
    rw [if_neg h0]
    simp only [hstarted, Bool.not_true, Bool.false_eq_true, if_false, hloop]
  · rw [hlen, List.length_replicate]
  · intro i r c hi hc
    have := hres i r c hi hc
    rwa [Nat.zero_add] at this

theorem index_mem {α : Type} (l : List α) (i : Int) (a : α) (h : index l i = some a) : a ∈ l :=
  List.getElem?_mem ((index_eq_some_iff l i a).mp h).2

theorem lookup_mem (m : TopicOffsets) (t : Int) (a : List Int) (h : lookup t m = some a) :
    (t, a) ∈ m := by
  induction m with
  | nil => simp [lookup] at h
  | cons e m ih =>
    obtain ⟨k0, v0⟩ := e
    simp only [lookup] at h
    split at h
    · next hk =>
      cases h
      subst hk
      exact List.mem_cons_self _ _
    · exact List.mem_cons_of_mem _ (ih h)

/-- A map whose arrays hold int64 values has int64 counters. -/
theorem countersInt64_of_forall (m : TopicOffsets) (h : ∀ e ∈ m, ∀ c ∈ e.2, isInt64 c) :
    countersInt64 m := by
  intro t p c hc
  obtain ⟨a, ha, hi⟩ := counter_eq_some m t p c hc
  exact h (t, a) (lookup_mem m t a ha) c (index_mem a p c hi)

/-- Prefix sums of positive sizes: range `i` ends at or before the start of every
later range. -/
theorem running_sum_mono (order : List Int) : ∀ (i j : Nat) (n : Int),
    (∀ k ∈ order, 1 ≤ k) → i < j → j ≤ order.length → order[i]? = some n →
    (order.take i).sum + n ≤ (order.take j).sum := by
  induction order with
  | nil => intro i j n _ hij hj; simp at hj; omega
  | cons a rest ih =>
    intro i j n hpos hij hj hi
    cases j with
    | zero => omega
    | succ j' =>
      have hrest : ∀ k ∈ rest, 1 ≤ k := fun k hk => hpos k (List.mem_cons_of_mem _ hk)
      cases i with
      | zero =>
        simp only [List.getElem?_cons_zero, Option.some.injEq] at hi
        subst hi
        have hnn : 0 ≤ (rest.take j').sum :=
          List.sum_nonneg (fun k hk => by have := hrest k (List.mem_of_mem_take hk); omega)
        simp only [List.take_zero, List.sum_nil, List.take_succ_cons, List.sum_cons]
        omega
      | succ i' =>
        simp only [List.getElem?_cons_succ] at hi
        simp only [List.length_cons] at hj
        have := ih i' j' n hrest (by omega) (by omega) hi
        simp only [List.take_succ_cons, List.sum_cons]
        omega

/-- Prefix sums of positive sizes: the ranges cover exactly `[b, b + sum)`. -/
theorem running_sum_cover (order : List Int) : ∀ (b x : Int), (∀ k ∈ order, 1 ≤ k) →
    ((b ≤ x ∧ x < b + order.sum) ↔
      ∃ i n, order[i]? = some n ∧ b + (order.take i).sum ≤ x ∧ x < b + (order.take i).sum + n) := by
  induction order with
  | nil =>
    intro b x _
    simp only [List.sum_nil, add_zero, List.getElem?_nil]
    constructor
    · intro h; omega
    · rintro ⟨i, n, h, _⟩; cases h
  | cons a rest ih =>
    intro b x hpos
    have hrest : ∀ k ∈ rest, 1 ≤ k := fun k hk => hpos k (List.mem_cons_of_mem _ hk)
    have ha := hpos a (List.mem_cons_self _ _)
    have hnn : 0 ≤ rest.sum :=
      List.sum_nonneg (fun k hk => by have := hrest k hk; omega)
    simp only [List.sum_cons]
    constructor
    · rintro ⟨h0, h1⟩
      by_cases hx : x < b + a
      · exact ⟨0, a, by simp, by simp; omega, by simp; omega⟩
      · obtain ⟨i, n, hi, hlo, hhi⟩ := (ih (b + a) x hrest).mp ⟨by omega, by omega⟩
        refine ⟨i + 1, n, by simpa using hi, ?_, ?_⟩
        · simp only [List.take_succ_cons, List.sum_cons]; omega
        · simp only [List.take_succ_cons, List.sum_cons]; omega
    · rintro ⟨i, n, hi, hlo, hhi⟩
      cases i with
      | zero =>
        simp only [List.getElem?_cons_zero, Option.some.injEq] at hi
        subst hi
        simp only [List.take_zero, List.sum_nil, add_zero] at hlo hhi
        omega
      | succ i' =>
        simp only [List.getElem?_cons_succ] at hi
        simp only [List.take_succ_cons, List.sum_cons] at hlo hhi
        have := (ih (b + a) x hrest).mpr ⟨i', n, hi, by omega, by omega⟩
        omega

/-- Single-request calls on one counter, run one after the other: call `i`
returns the start value plus the sizes of the calls before it. -/
theorem runCalls_single (t p : Int) (order : List Int) : ∀ (o : OffsetsCache) (b : Int),
    o.started = true → counter o.topicOffsets t p = some b →
    (∀ n ∈ order, 1 ≤ n) → -9223372036854775808 ≤ b → b + order.sum < 9223372036854775808 →
    ∃ (o' : OffsetsCache) (rs : List Int),
      runCalls o (order.map (fun n => [GetOffsetInfo.mk t p n]))
        = .ok (o', rs.map (fun r => Except.ok [r])) ∧
      rs.length = order.length ∧
      (∀ i, i < order.length → rs[i]? = some (b + (order.take i).sum)) ∧
      counter o'.topicOffsets t p = some (b + order.sum) ∧ o'.started = true := by
  induction order with
  | nil =>
    intro o b hst hc _ _ _
    exact ⟨o, [], rfl, rfl, by simp, by simpa using hc, hst⟩
  | cons n rest ih =>
    intro o b hst hc hpos hlo hhi
    have hn := hpos n (List.mem_cons_self _ _)
    have hrest : ∀ k ∈ rest, 1 ≤ k := fun k hk => hpos k (List.mem_cons_of_mem _ hk)
    have hnn : 0 ≤ rest.sum :=
      List.sum_nonneg (fun k hk => by have := hrest k hk; omega)
    simp only [List.sum_cons] at hhi
    have hb : isInt64 b := ⟨hlo, by omega⟩
    have hbn : isInt64 (b + n) := ⟨by omega, by omega⟩
    obtain ⟨m1, hget, hm1⟩ := getOffset_ok o.topicOffsets ⟨t, p, n⟩ b hn hc
    simp only at hget hm1
    rw [wrapInt64_add_sub b n hb] at hget
    have hcall : GetOffsets o [⟨t, p, n⟩] = .ok ({ o with topicOffsets := m1 }, .ok [b]) := by
      simp [GetOffsets, getOffsetsLoop, hst, hget]
    have hc1 : counter m1 t p = some (b + n) := by
      rw [hm1 t p, if_pos ⟨rfl, rfl⟩, wrapInt64_of_isInt64 _ hbn]
    obtain ⟨o', rs, hrun, hlen, hrs, hcnt, hst'⟩ :=
      ih { o with topicOffsets := m1 } (b + n) hst hc1 hrest (by omega) (by omega)
    refine ⟨o', b :: rs, ?_, by simp [hlen], ?_, ?_, hst'⟩
    · simp only [List.map_cons, runCalls, hcall, hrun]
    · intro i hi
      cases i with
      | zero => simp
      | succ i' =>
        simp only [List.length_cons] at hi
        simp only [List.getElem?_cons_succ, List.take_succ_cons, List.sum_cons]
        rw [hrs i' (by omega), add_assoc]
    · rw [hcnt, List.sum_cons, add_assoc]

theorem index_replicate (n : Nat) (p : Int) (h0 : 0 ≤ p) (h1 : p < n) :
    index (List.replicate n (0 : Int)) p = some 0 := by
  rw [index_eq_some_iff]
  refine ⟨h0, ?_⟩
  rw [List.getElem?_replicate]
  have : p.toNat < n := by omega
  simp [this]

theorem index_isSome_of_lt {α : Type} (l : List α) (p : Int) (h0 : 0 ≤ p) (h1 : p < l.length) :
    ∃ c, index l p = some c := by
  have hlt : p.toNat < l.length := by omega
  exact ⟨l[p.toNat], (index_eq_some_iff l p _).mpr ⟨h0, List.getElem?_eq_getElem hlt⟩⟩

/-- The seeding loop on in-range partition indexes: it runs to the end, keeps the
length, and each slot holds the last stored offset for it plus one (int64
arithmetic), or its previous value when nothing is stored for it. -/
theorem seedOffsets_ok (offs : List StoredOffset) : ∀ (slice : List Int),
    (∀ so ∈ offs, 0 ≤ so.partitionID ∧ so.partitionID < slice.length) →
    ∃ seeded, seedOffsets slice offs = .ok (seeded, none) ∧ seeded.length = slice.length ∧
      ∀ p c, index slice p = some c →
        index seeded p = some (match lastStored offs p with
          | some v => wrapInt64 (v + 1)
          | none => c) := by
  induction offs with
  | nil =>
    intro slice _
    exact ⟨slice, rfl, rfl, fun p c hc => by simpa [lastStored] using hc⟩
  | cons so rest ih =>
    intro slice hin
    obtain ⟨h0, h1⟩ := hin so (List.mem_cons_self _ _)
    obtain ⟨c0, hc0⟩ := index_isSome_of_lt slice so.partitionID h0 h1
    have hin' : ∀ so' ∈ rest, 0 ≤ so'.partitionID ∧
        so'.partitionID < (slice.set so.partitionID.toNat (wrapInt64 (so.offset + 1))).length := by
      intro so' hso'
      rw [List.length_set]
      exact hin so' (List.mem_cons_of_mem _ hso')
    obtain ⟨seeded, hrun, hlen, hval⟩ := ih _ hin'
    refine ⟨seeded, ?_, by rw [hlen, List.length_set], ?_⟩
    · simp only [seedOffsets]
      rw [if_neg (by omega)]
      simp only [hc0, hrun]
    · intro p c hc
      have h1 := index_set slice so.partitionID p (wrapInt64 (so.offset + 1)) c0 hc0
      by_cases hp : p = so.partitionID
      · rw [if_pos hp] at h1
        rw [hval p _ h1]
        simp only [lastStored]
        cases lastStored rest p with
        | some v => rfl
        | none => simp [hp]
      · rw [if_neg hp, hc] at h1
        rw [hval p _ h1]
        simp only [lastStored]
        cases lastStored rest p with
        | some v => rfl
        | none => simp [Ne.symm hp]

/-- With at most one entry per partition, the last stored offset of a partition is
the offset of its entry. -/
theorem lastStored_of_mem (offs : List StoredOffset) (p off : Int)
    (hnd : (offs.map (fun so => so.partitionID)).Nodup) (hmem : StoredOffset.mk p off ∈ offs) :
    lastStored offs p = some off := by
  induction offs with
  | nil => simp at hmem
  | cons so rest ih =>
    simp only [List.map_cons, List.nodup_cons] at hnd
    simp only [lastStored]
    rcases List.mem_cons.mp hmem with h | h
    · subst h
      have hnone : lastStored rest p = none := by
        cases hl : lastStored rest p with
        | none => rfl
        | some v =>
          exfalso
          have : ∀ (l : List StoredOffset) (v : Int), lastStored l p = some v →
              p ∈ l.map (fun so => so.partitionID) := by
            intro l
            induction l with
            | nil => intro v hv; simp [lastStored] at hv
            | cons a l ihl =>
              intro v hv
              simp only [lastStored] at hv
              cases hl' : lastStored l p with
              | some w => simp [ihl w hl']
              | none =>
                rw [hl'] at hv
                simp only at hv
                split at hv
                · next hap => simp [hap]
                · cases hv
          exact hnd.1 (this rest v hl)
      simp [hnone]
    · rw [ih hnd.2 h]

theorem lastStored_none (offs : List StoredOffset) (p : Int)
    (h : ∀ so ∈ offs, so.partitionID ≠ p) : lastStored offs p = none := by
  induction offs with
  | nil => rfl
  | cons so rest ih =>
    simp only [lastStored]
    rw [ih (fun so' hso' => h so' (List.mem_cons_of_mem _ hso'))]
    simp [h so (List.mem_cons_self _ _)]

/-- The topic loop of `Start` on well-formed recovery input: it runs to the end;
each listed topic gets a counter array of `PartitionCount` slots holding the last
stored offset plus one, or 0; topics not listed keep their entry. -/
theorem startLoop_ok (loader : Int → Except Error (List StoredOffset))
    (topics : List TopicInfo) : ∀ (m : TopicOffsets),
    (topics.map (fun ti => ti.TopicID)).Nodup →
    (∀ ti ∈ topics, 0 ≤ ti.PartitionCount ∧ ∃ offs, loader ti.TopicID = .ok offs ∧
      ∀ so ∈ offs, 0 ≤ so.partitionID ∧ so.partitionID < ti.PartitionCount) →
    ∃ m', startLoop loader m topics = .ok (m', none) ∧
      (∀ ti ∈ topics, ∀ offs, loader ti.TopicID = .ok offs → ∀ p, 0 ≤ p → p < ti.PartitionCount →
        counter m' ti.TopicID p = some (match lastStored offs p with
          | some v => wrapInt64 (v + 1)
          | none => 0)) ∧
      (∀ t, t ∉ topics.map (fun ti => ti.TopicID) → lookup t m' = lookup t m) := by
  induction topics with
  | nil =>
    intro m _ _
    exact ⟨m, rfl, fun ti hti => by simp at hti, fun _ _ => rfl⟩
  | cons ti rest ih =>
    intro m hnd hvalid
    simp only [List.map_cons, List.nodup_cons] at hnd
    obtain ⟨hcount, offs, hload, hin⟩ := hvalid ti (List.mem_cons_self _ _)
    have hmake : makeSlice ti.PartitionCount = some (List.replicate ti.PartitionCount.toNat 0) := by
      unfold makeSlice
      rw [if_neg (by omega)]
    have hin' : ∀ so ∈ offs, 0 ≤ so.partitionID ∧
        so.partitionID < (List.replicate ti.PartitionCount.toNat (0 : Int)).length := by
      intro so hso
      rw [List.length_replicate]
      have := hin so hso
      omega
    obtain ⟨seeded, hseed, hlen, hval⟩ := seedOffsets_ok offs _ hin'
    obtain ⟨m', hrun, hcnt, hframe⟩ :=
      ih (insert ti.TopicID seeded (insert ti.TopicID (List.replicate ti.PartitionCount.toNat 0) m))
        hnd.2 (fun ti' hti' => hvalid ti' (List.mem_cons_of_mem _ hti'))
    refine ⟨m', ?_, ?_, ?_⟩
    · simp only [startLoop, hmake, hload, hseed]
      exact hrun
    · intro ti' hti' offs' hload' p hp0 hp1
      rcases List.mem_cons.mp hti' with h | h
      · subst h
        rw [hload] at hload'
        cases hload'
        unfold counter
        rw [hframe ti'.TopicID hnd.1, lookup_insert, if_pos rfl]
        exact hval p 0 (index_replicate _ p hp0 (by omega))
      · exact hcnt ti' h offs' hload' p hp0 hp1
    · intro t ht
      simp only [List.map_cons, List.mem_cons, not_or] at ht
      rw [hframe t ht.2, lookup_insert, if_neg (Ne.symm ht.1), lookup_insert,
        if_neg (Ne.symm ht.1)]

/-- A single reservation through `GetOffsets` returns the current counter. -/
theorem GetOffsets_single (o : OffsetsCache) (t p n c : Int) (hst : o.started = true)
    (hn : 1 ≤ n) (hc : counter o.topicOffsets t p = some c) (hint : isInt64 c) :
    ∃ o', GetOffsets o [⟨t, p, n⟩] = .ok (o', .ok [c]) := by
  obtain ⟨m1, hget, _⟩ := getOffset_ok o.topicOffsets ⟨t, p, n⟩ c hn hc
  simp only at hget
  rw [wrapInt64_add_sub c n hint] at hget
  exact ⟨{ o with topicOffsets := m1 }, by simp [GetOffsets, getOffsetsLoop, hst, hget]⟩

/-- A reservation on a loaded topic and an in-range partition returns an offset
and keeps the shape of the map: the same topics, arrays of the same length. -/
theorem getOffset_shape (m : TopicOffsets) (info : GetOffsetInfo)
    (hn : 1 ≤ info.NumOffsets)
    (hv : ∃ a, lookup info.TopicID m = some a ∧ 0 ≤ info.PartitionID ∧ info.PartitionID < a.length) :
    ∃ m' off, getOffset m info = .ok (m', .ok off) ∧
      ∀ t, (lookup t m').map List.length = (lookup t m).map List.length := by
  obtain ⟨a, ha, h0, h1⟩ := hv
  obtain ⟨c, hc⟩ := index_isSome_of_lt a info.PartitionID h0 h1
  refine ⟨insert info.TopicID (a.set info.PartitionID.toNat (wrapInt64 (c + info.NumOffsets))) m,
    wrapInt64 (wrapInt64 (c + info.NumOffsets) - info.NumOffsets), ?_, ?_⟩
  · unfold getOffset
    rw [if_neg (by omega)]
    simp only [ha, hc]
  · intro t
    rw [lookup_insert]
    by_cases ht : info.TopicID = t
    · subst ht
      simp [ha]
    · rw [if_neg ht]

/-- The loop of `GetOffsets` runs through a prefix of well-formed requests and
goes on with the rest on a map of the same shape. -/
theorem getOffsetsLoop_append (pre : List GetOffsetInfo) : ∀ (m : TopicOffsets) (i : Nat)
    (res : List Int),
    (∀ q ∈ pre, 1 ≤ q.NumOffsets ∧
      ∃ a, lookup q.TopicID m = some a ∧ 0 ≤ q.PartitionID ∧ q.PartitionID < a.length) →
    ∃ m1 res1, (∀ rest, getOffsetsLoop m (pre ++ rest) i res
        = getOffsetsLoop m1 rest (i + pre.length) res1) ∧
      ∀ t, (lookup t m1).map List.length = (lookup t m).map List.length := by
  induction pre with
  | nil =>
    intro m i res _
    exact ⟨m, res, fun rest => by simp, fun _ => rfl⟩
  | cons q pre ih =>
    intro m i res hvalid
    obtain ⟨hn, hv⟩ := hvalid q (List.mem_cons_self _ _)
    obtain ⟨m', off, hget, hshape⟩ := getOffset_shape m q hn hv
    have hvalid' : ∀ q' ∈ pre, 1 ≤ q'.NumOffsets ∧
        ∃ a, lookup q'.TopicID m' = some a ∧ 0 ≤ q'.PartitionID ∧ q'.PartitionID < a.length := by
      intro q' hq'
      obtain ⟨hn', a, ha, h0, h1⟩ := hvalid q' (List.mem_cons_of_mem _ hq')
      refine ⟨hn', ?_⟩
      have hs := hshape q'.TopicID
      rw [ha] at hs
      cases hl : lookup q'.TopicID m' with
      | none => rw [hl] at hs; simp at hs
      | some a' =>
        rw [hl] at hs
        simp only [Option.map_some', Option.some.injEq] at hs
        exact ⟨a', rfl, h0, by omega⟩
    obtain ⟨m1, res1, hrun, hshape1⟩ := ih m' (i + 1) (res.set i off) hvalid'
    refine ⟨m1, res1, ?_, ?_⟩
    · intro rest
      have hidx : i + (q :: pre).length = i + 1 + pre.length := by
        simp only [List.length_cons]; omega
      rw [hidx, ← hrun rest, List.cons_append]
      simp only [getOffsetsLoop, hget]
    · intro t
      rw [hshape1 t, hshape t]

/-- What a returning `getOffset` did: the count was positive, and either the topic
is unknown and nothing changed, or the request named a loaded topic and an
in-range partition. -/
theorem getOffset_cases (m m1 : TopicOffsets) (info : GetOffsetInfo)
    (r : Except Error Int) (h : getOffset m info = .ok (m1, r)) :
    1 ≤ info.NumOffsets ∧
    ((lookup info.TopicID m = none ∧ m1 = m ∧ r = .error (.unknownTopicID info.TopicID)) ∨
     (∃ a, lookup info.TopicID m = some a ∧ 0 ≤ info.PartitionID ∧
        info.PartitionID < a.length ∧ ∃ off, r = .ok off)) := by
  unfold getOffset at h
  by_cases hn : info.NumOffsets < 1
  · rw [if_pos hn] at h; cases h
  · rw [if_neg hn] at h
    refine ⟨by omega, ?_⟩
    cases hl : lookup info.TopicID m with
    | none =>
      simp only [hl] at h
      cases h
      exact Or.inl ⟨rfl, rfl, rfl⟩
    | some a =>
      simp only [hl] at h
      cases hi : index a info.PartitionID with
      | none => simp only [hi] at h; cases h
      | some c =>
        simp only [hi] at h
        cases h
        have hb := (index_eq_some_iff a info.PartitionID c).mp hi
        have hlt : info.PartitionID.toNat < a.length := by
          rcases List.getElem?_eq_some_iff.mp hb.2 with ⟨hl', _⟩
          exact hl'
        exact Or.inr ⟨a, rfl, hb.1, by omega, _, rfl⟩

theorem valid_of_shape (m m1 : TopicOffsets) (t p : Int)
    (hshape : (lookup t m1).map List.length = (lookup t m).map List.length)
    (h : ∃ a, lookup t m1 = some a ∧ 0 ≤ p ∧ p < a.length) :
    ∃ a, lookup t m = some a ∧ 0 ≤ p ∧ p < a.length := by
  obtain ⟨a, ha, h0, h1⟩ := h
  rw [ha] at hshape
  cases hl : lookup t m with
  | none => rw [hl] at hshape; simp at hshape
  | some a' =>
    rw [hl] at hshape
    simp only [Option.map_some', Option.some.injEq] at hshape
    exact ⟨a', rfl, h0, by omega⟩

theorem lookup_none_of_shape (m m1 : TopicOffsets) (t : Int)
    (hshape : (lookup t m1).map List.length = (lookup t m).map List.length)
    (h : lookup t m1 = none) : lookup t m = none := by
  rw [h] at hshape
  cases hl : lookup t m with
  | none => rfl
  | some a => rw [hl] at hshape; simp at hshape

/-- Every returning run of the loop of `GetOffsets` served a prefix of well-formed
requests and then either reached the end of the list or stopped at a request with
a positive count for an unknown topic; the map it leaves is the one the prefix
alone leaves. -/
theorem getOffsetsLoop_run (infos : List GetOffsetInfo) : ∀ (m : TopicOffsets) (i : Nat)
    (res : List Int) (m' : TopicOffsets) (r : Except Error (List Int)),
    getOffsetsLoop m infos i res = .ok (m', r) →
    ∃ k out, k ≤ infos.length ∧
      (∀ q ∈ infos.take k, 1 ≤ q.NumOffsets ∧
        ∃ a, lookup q.TopicID m = some a ∧ 0 ≤ q.PartitionID ∧ q.PartitionID < a.length) ∧
      getOffsetsLoop m (infos.take k) i res = .ok (m', .ok out) ∧
      ((k = infos.length ∧ r = .ok out) ∨
        (∃ q, infos[k]? = some q ∧ 1 ≤ q.NumOffsets ∧ lookup q.TopicID m = none ∧
          r = .error (.unknownTopicID q.TopicID))) := by
  induction infos with
  | nil =>
    intro m i res m' r h
    simp only [getOffsetsLoop, Result.ok.injEq, Prod.mk.injEq] at h
    obtain ⟨hm, hr⟩ := h
    subst hm hr
    exact ⟨0, res, le_refl _, by simp, rfl, Or.inl ⟨rfl, rfl⟩⟩
  | cons q rest ih =>
    intro m i res m' r h
    simp only [getOffsetsLoop] at h
    cases hg : getOffset m q with
    | panicked => rw [hg] at h; cases h
    | outOfFuel => rw [hg] at h; cases h
    | ok pr =>
      obtain ⟨m1, r1⟩ := pr
      obtain ⟨hn, hcase⟩ := getOffset_cases m m1 q r1 hg
      rcases hcase with ⟨hnone, hm1, hr1⟩ | ⟨a, ha, h0, h1, off, hr1⟩
      · subst hr1
        rw [hg] at h
        simp only [Result.ok.injEq, Prod.mk.injEq] at h
        obtain ⟨hm, hr⟩ := h
        subst hm hr hm1
        exact ⟨0, res, Nat.zero_le _, by simp, rfl,
          Or.inr ⟨q, by simp, hn, hnone, rfl⟩⟩
      · subst hr1
        rw [hg] at h
        simp only at h
        obtain ⟨m2, off2, hg2, hshape⟩ := getOffset_shape m q hn ⟨a, ha, h0, h1⟩
        rw [hg] at hg2
        simp only [Result.ok.injEq, Prod.mk.injEq, Except.ok.injEq] at hg2
        obtain ⟨hm2, _⟩ := hg2
        subst hm2
        obtain ⟨k, out, hk, hvalid, hrun, hend⟩ := ih m1 (i + 1) (res.set i off) m' r h
        refine ⟨k + 1, out, by simp only [List.length_cons]; omega, ?_, ?_, ?_⟩
        · intro q' hq'
          simp only [List.take_succ_cons, List.mem_cons] at hq'
          rcases hq' with rfl | hq'
          · exact ⟨hn, a, ha, h0, h1⟩
          · obtain ⟨hn', hv'⟩ := hvalid q' hq'
            exact ⟨hn', valid_of_shape m m1 _ _ (hshape _) hv'⟩
        · simp only [List.take_succ_cons, getOffsetsLoop, hg]
          exact hrun
        · rcases hend with ⟨hk', hr⟩ | ⟨q', hq', hn', hnone', hr⟩
          · exact Or.inl ⟨by simp only [List.length_cons]; omega, hr⟩
          · exact Or.inr ⟨q', by simpa using hq', hn',
              lookup_none_of_shape m m1 _ (hshape _) hnone', hr⟩

/-- Frame and shape of the loop of `GetOffsets` on well-formed requests: it
returns offsets, keeps the set of topics and the length of every counter array,
and leaves every counter that no request names as it was. -/
theorem getOffsetsLoop_frame (infos : List GetOffsetInfo) : ∀ (m : TopicOffsets) (i : Nat)
    (res : List Int),
    (∀ q ∈ infos, 1 ≤ q.NumOffsets ∧
      ∃ a, lookup q.TopicID m = some a ∧ 0 ≤ q.PartitionID ∧ q.PartitionID < a.length) →
    ∃ m' out, getOffsetsLoop m infos i res = .ok (m', .ok out) ∧
      out.length = res.length ∧
      (∀ t, (lookup t m').map List.length = (lookup t m).map List.length) ∧
      (∀ t p, (∀ q ∈ infos, ¬ (q.TopicID = t ∧ q.PartitionID = p)) →
        counter m' t p = counter m t p) := by
  induction infos with
  | nil =>
    intro m i res _
    exact ⟨m, res, rfl, rfl, fun _ => rfl, fun _ _ _ => rfl⟩
  | cons q rest ih =>
    intro m i res hvalid
    obtain ⟨hn, hv⟩ := hvalid q (List.mem_cons_self _ _)
    obtain ⟨c, hc⟩ := counter_of_valid m q hv
    obtain ⟨m1, hget, hm1⟩ := getOffset_ok m q c hn hc
    obtain ⟨m2, off2, hg2, hshape⟩ := getOffset_shape m q hn hv
    rw [hget] at hg2
    simp only [Result.ok.injEq, Prod.mk.injEq, Except.ok.injEq] at hg2
    obtain ⟨hm2, _⟩ := hg2
    subst hm2
    have hvalid1 : ∀ q' ∈ rest, 1 ≤ q'.NumOffsets ∧
        ∃ a, lookup q'.TopicID m1 = some a ∧ 0 ≤ q'.PartitionID ∧ q'.PartitionID < a.length := by
      intro q' hq'
      obtain ⟨hn', hv'⟩ := hvalid q' (List.mem_cons_of_mem _ hq')
      exact ⟨hn', valid_of_shape m1 m _ _ (hshape _).symm hv'⟩
    obtain ⟨m', out, hrun, hlen, hshape', hframe⟩ := ih m1 (i + 1)
      (res.set i (wrapInt64 (wrapInt64 (c + q.NumOffsets) - q.NumOffsets))) hvalid1
    refine ⟨m', out, ?_, by rw [hlen, List.length_set], ?_, ?_⟩
    · simp only [getOffsetsLoop, hget]
      exact hrun
    · intro t
      rw [hshape' t, hshape t]
    · intro t p hnot
      rw [hframe t p (fun q' hq' => hnot q' (List.mem_cons_of_mem _ hq')), hm1 t p,
        if_neg (fun h => hnot q (List.mem_cons_self _ _) ⟨h.1.symm, h.2.symm⟩)]

/-- The map the loop of `GetOffsets` leaves does not depend on the result slice
it fills. -/
theorem getOffsetsLoop_map_indep (infos : List GetOffsetInfo) : ∀ (m m' : TopicOffsets)
    (i i2 : Nat) (res res2 out : List Int),
    getOffsetsLoop m infos i res = .ok (m', .ok out) →
    ∃ out2, getOffsetsLoop m infos i2 res2 = .ok (m', .ok out2) := by
  induction infos with
  | nil =>
    intro m m' i i2 res res2 out h
    simp only [getOffsetsLoop, Result.ok.injEq, Prod.mk.injEq, Except.ok.injEq] at h
    obtain ⟨hm, _⟩ := h
    subst hm
    exact ⟨res2, rfl⟩
  | cons q rest ih =>
    intro m m' i i2 res res2 out h
    simp only [getOffsetsLoop] at h ⊢
    cases hg : getOffset m q with
    | panicked => rw [hg] at h; cases h
    | outOfFuel => rw [hg] at h; cases h
    | ok pr =>
      obtain ⟨m1, r1⟩ := pr
      rw [hg] at h
      cases r1 with
      | error e => simp only [Result.ok.injEq, Prod.mk.injEq] at h; cases h.2
      | ok off =>
        simp only at h ⊢
        exact ih m1 m' (i + 1) (i2 + 1) _ _ out h

/-- Every returning call of `GetOffsets` keeps the started flag and the shape of
the map, and served a prefix of the requests (empty when it returned "empty
infos" or "not started"): the counters named by the prefix grew by its
`NumOffsets`, the others are as before. -/
theorem GetOffsets_effect (o o' : OffsetsCache) (infos : List GetOffsetInfo)
    (r : Except Error (List Int)) (h : GetOffsets o infos = .ok (o', r)) :
    o'.started = o.started ∧
    ∃ k, k ≤ infos.length ∧
      (∀ q ∈ infos.take k, 1 ≤ q.NumOffsets ∧
        ∃ a, lookup q.TopicID o.topicOffsets = some a ∧ 0 ≤ q.PartitionID ∧
          q.PartitionID < a.length) ∧
      (∀ t, (lookup t o'.topicOffsets).map List.length
        = (lookup t o.topicOffsets).map List.length) ∧
      (∀ t p, (∀ q ∈ infos.take k, ¬ (q.TopicID = t ∧ q.PartitionID = p)) →
        counter o'.topicOffsets t p = counter o.topicOffsets t p) ∧
      (countersInt64 o.topicOffsets → ∀ t p, counter o'.topicOffsets t p
        = (counter o.topicOffsets t p).map (fun c => wrapInt64 (c + sumFor (infos.take k) t p))) ∧
      ((∃ out, r = .ok out ∧ k = infos.length ∧ infos ≠ [] ∧ o.started = true) ∨
       (r = .error .emptyInfos ∧ infos = [] ∧ o' = o ∧ k = 0) ∨
       (r = .error .notStarted ∧ infos ≠ [] ∧ o.started = false ∧ o' = o ∧ k = 0) ∨
       (∃ q, infos[k]? = some q ∧ 1 ≤ q.NumOffsets ∧ lookup q.TopicID o.topicOffsets = none ∧
          r = .error (.unknownTopicID q.TopicID) ∧ o.started = true)) := by
  have hzero : ∀ (oo : OffsetsCache),
      (∀ t, (lookup t oo.topicOffsets).map List.length
        = (lookup t oo.topicOffsets).map List.length) ∧
      (∀ t p, (∀ q ∈ infos.take 0, ¬ (q.TopicID = t ∧ q.PartitionID = p)) →
        counter oo.topicOffsets t p = counter oo.topicOffsets t p) ∧
      (countersInt64 oo.topicOffsets → ∀ t p, counter oo.topicOffsets t p
        = (counter oo.topicOffsets t p).map
            (fun c => wrapInt64 (c + sumFor (infos.take 0) t p))) := by
    intro oo
    refine ⟨fun _ => rfl, fun _ _ _ => rfl, ?_⟩
    intro hint t p
    cases hc : counter oo.topicOffsets t p with
    | none => rfl
    | some c =>
      simp only [Option.map_some', List.take_zero, sumFor_nil, add_zero]
      rw [wrapInt64_of_isInt64 c (hint t p c hc)]
  unfold GetOffsets at h
  by_cases hlen : infos.length = 0
  · rw [if_pos hlen] at h
    simp only [Result.ok.injEq, Prod.mk.injEq] at h
    obtain ⟨ho, hr⟩ := h
    subst ho hr
    have hnil : infos = [] := List.length_eq_zero.mp hlen
    obtain ⟨h1, h2, h3⟩ := hzero o
    exact ⟨rfl, 0, Nat.zero_le _, by simp, h1, h2, h3, Or.inr (Or.inl ⟨rfl, hnil, rfl, rfl⟩)⟩
  · rw [if_neg hlen] at h
    have hne : infos ≠ [] := fun hnil => hlen (by rw [hnil]; rfl)
    rcases Bool.eq_false_or_eq_true o.started with hst | hst
    rotate_left
    · simp only [hst, Bool.not_false, if_true, Result.ok.injEq, Prod.mk.injEq] at h
      obtain ⟨ho, hr⟩ := h
      subst ho hr
      obtain ⟨h1, h2, h3⟩ := hzero o
      exact ⟨rfl, 0, Nat.zero_le _, by simp, h1, h2, h3,
        Or.inr (Or.inr (Or.inl ⟨rfl, hne, hst, rfl, rfl⟩))⟩
    · simp only [hst, Bool.not_true, Bool.false_eq_true, if_false] at h
      cases hloop : getOffsetsLoop o.topicOffsets infos 0 (List.replicate infos.length 0) with
      | panicked => rw [hloop] at h; cases h
      | outOfFuel => rw [hloop] at h; cases h
      | ok pr =>
        obtain ⟨m', r'⟩ := pr
        rw [hloop] at h
        simp only [Result.ok.injEq, Prod.mk.injEq] at h
        obtain ⟨ho, hr⟩ := h
        subst ho hr
        obtain ⟨k, out, hk, hvalid, hrun, hend⟩ :=
          getOffsetsLoop_run infos o.topicOffsets 0 _ m' r' hloop
        obtain ⟨m2, out2, hrun2, _, hshape, hframe⟩ :=
          getOffsetsLoop_frame (infos.take k) o.topicOffsets 0
            (List.replicate infos.length 0) hvalid
        rw [hrun] at hrun2
        simp only [Result.ok.injEq, Prod.mk.injEq, Except.ok.injEq] at hrun2
        obtain ⟨hm, _⟩ := hrun2
        subst hm
        refine ⟨hst.symm, k, hk, hvalid, hshape, hframe, ?_, ?_⟩
        · intro hint
          obtain ⟨m3, out3, hrun3, _, _, _, hcnt, _⟩ :=
            getOffsetsLoop_ok (infos.take k) o.topicOffsets 0 (List.replicate k 0)
              (fun q hq => ⟨(hvalid q hq).1, counter_of_valid _ q (hvalid q hq).2⟩) hint
              (by simp [List.length_take, Nat.min_eq_left hk])
          obtain ⟨out4, hrun4⟩ :=
            getOffsetsLoop_map_indep (infos.take k) o.topicOffsets m' 0 0
              (List.replicate infos.length 0) (List.replicate k 0) out hrun
          rw [hrun3] at hrun4
          simp only [Result.ok.injEq, Prod.mk.injEq, Except.ok.injEq] at hrun4
          obtain ⟨hm3, _⟩ := hrun4
          subst hm3
          exact hcnt
        · rcases hend with ⟨hk', hr⟩ | ⟨q, hq, hn, hnone, hr⟩
          · exact Or.inl ⟨out, hr, hk', hne, hst⟩
          · exact Or.inr (Or.inr (Or.inr ⟨q, hq, hn, hnone, hr, hst⟩))

/-- The loop of `GetOffsets` panics when, after a prefix of well-formed requests,
it reaches a request with `NumOffsets < 1`. -/
theorem getOffsetsLoop_panics (pre post : List GetOffsetInfo) (r : GetOffsetInfo)
    (m : TopicOffsets) (i : Nat) (res : List Int)
    (hvalid : ∀ q ∈ pre, 1 ≤ q.NumOffsets ∧
      ∃ a, lookup q.TopicID m = some a ∧ 0 ≤ q.PartitionID ∧ q.PartitionID < a.length)
    (hn : r.NumOffsets < 1) :
    getOffsetsLoop m (pre ++ r :: post) i res = .panicked := by
  obtain ⟨m1, res1, hrun, _⟩ := getOffsetsLoop_append pre m i res hvalid
  have hget : getOffset m1 r = .panicked := by
    unfold getOffset
    rw [if_pos hn]
  rw [hrun]
  simp only [getOffsetsLoop, hget]

theorem sumFor_nonneg (infos : List GetOffsetInfo) (t p : Int)
    (h : ∀ q ∈ infos, 1 ≤ q.NumOffsets) : 0 ≤ sumFor infos t p := by
  induction infos with
  | nil => simp [sumFor_nil]
  | cons q rest ih =>
    rw [sumFor_cons]
    have h1 := h q (List.mem_cons_self _ _)
    have h2 := ih (fun q' hq' => h q' (List.mem_cons_of_mem _ hq'))
    split <;> omega

theorem Start_started (o : OffsetsCache) (provider : Except Error (List TopicInfo))
    (loader : Int → Except Error (List StoredOffset)) (hst : o.started = true) :
    Start provider loader o = .ok (o, none) := by
  unfold Start
  rw [if_pos hst]

/-- The topic loop of `Start` treats the map it starts from as a background: from
two maps that agree on a set of topics it ends the same way, and the resulting
maps agree on that set and, when the loop ran to the end, on every listed topic. -/
theorem startLoop_indep (loader : Int → Except Error (List StoredOffset))
    (topics : List TopicInfo) : ∀ (m m0 : TopicOffsets) (P : Int → Prop),
    (∀ t, P t → lookup t m = lookup t m0) →
    (startLoop loader m topics = .panicked ∧ startLoop loader m0 topics = .panicked) ∨
    (startLoop loader m topics = .outOfFuel ∧ startLoop loader m0 topics = .outOfFuel) ∨
    (∃ m' m0' e, startLoop loader m topics = .ok (m', e) ∧
      startLoop loader m0 topics = .ok (m0', e) ∧
      ∀ t, (P t ∨ (e = none ∧ t ∈ topics.map (fun ti => ti.TopicID))) →
        lookup t m' = lookup t m0') := by
  induction topics with
  | nil =>
    intro m m0 P hP
    refine Or.inr (Or.inr ⟨m, m0, none, rfl, rfl, ?_⟩)
    intro t ht
    rcases ht with h | ⟨_, h⟩
    · exact hP t h
    · simp at h
  | cons ti rest ih =>
    intro m m0 P hP
    have hins : ∀ (v w : List Int) (t : Int), P t ∨ t = ti.TopicID →
        lookup t (insert ti.TopicID v (insert ti.TopicID w m))
          = lookup t (insert ti.TopicID v (insert ti.TopicID w m0)) := by
      intro v w t ht
      rw [lookup_insert, lookup_insert, lookup_insert, lookup_insert]
      by_cases h : ti.TopicID = t
      · rw [if_pos h, if_pos h]
      · rw [if_neg h, if_neg h, if_neg h, if_neg h]
        rcases ht with hp | he
        · exact hP t hp
        · exact absurd he.symm h
    simp only [startLoop]
    cases hmk : makeSlice ti.PartitionCount with
    | none => exact Or.inl ⟨rfl, rfl⟩
    | some slice =>
      simp only
      cases hld : loader ti.TopicID with
      | error err =>
        refine Or.inr (Or.inr ⟨_, _, some err, rfl, rfl, ?_⟩)
        intro t ht
        rcases ht with hp | ⟨h, _⟩
        · rw [lookup_insert, lookup_insert]
          split
          · rfl
          · exact hP t hp
        · cases h
      | ok offs =>
        simp only
        cases hsd : seedOffsets slice offs with
        | panicked => exact Or.inl ⟨rfl, rfl⟩
        | outOfFuel => exact Or.inr (Or.inl ⟨rfl, rfl⟩)
        | ok pr =>
          obtain ⟨seeded, e⟩ := pr
          cases e with
          | some err =>
            refine Or.inr (Or.inr ⟨_, _, some err, rfl, rfl, ?_⟩)
            intro t ht
            rcases ht with hp | ⟨h, _⟩
            · exact hins seeded slice t (Or.inl hp)
            · cases h
          | none =>
            simp only
            rcases ih (insert ti.TopicID seeded (insert ti.TopicID slice m))
                (insert ti.TopicID seeded (insert ti.TopicID slice m0))
                (fun t => P t ∨ t = ti.TopicID) (hins seeded slice) with
              h | h | ⟨m', m0', e, h1, h2, h3⟩
            · exact Or.inl h
            · exact Or.inr (Or.inl h)
            · refine Or.inr (Or.inr ⟨m', m0', e, h1, h2, ?_⟩)
              intro t ht
              apply h3
              rcases ht with hp | ⟨he, hmem⟩
              · exact Or.inl (Or.inl hp)
              · simp only [List.map_cons, List.mem_cons] at hmem
                rcases hmem with hmem | hmem
                · exact Or.inl (Or.inr hmem)
                · exact Or.inr ⟨he, hmem⟩

theorem index_last_eq_getLast? (buf : List Nat) :
    index buf ((buf.length : Int) - 1) = buf.getLast? := by
  rcases List.eq_nil_or_concat buf with h | ⟨pre, b, h⟩
  · subst h
    simp [index]
  · subst h
    have := index_last pre b
    simp only [List.concat_eq_append] at this ⊢
    rw [this]
    simp

/-- The byte count of `binary.Uvarint` never exceeds the bytes it was given. -/
theorem UvarintLoop_count_le (buf : List Nat) : ∀ (i x s : Nat),
    (UvarintLoop buf i x s).2 ≤ (i : Int) + (buf.length : Nat) := by
  induction buf with
  | nil => intro i x s; simp [UvarintLoop]
  | cons b rest ih =>
    intro i x s
    simp only [UvarintLoop, List.length_cons]
    split
    · simp only; push_cast; omega
    · split
      · split
        · simp only; push_cast; omega
        · simp only; push_cast; omega
      · have := ih (i + 1) (x ||| (((b &&& 0x7f) <<< s) % 18446744073709551616)) (s + 7)
        push_cast at this ⊢
        omega

theorem Varint_count_le (buf : List Nat) : (Varint buf).2 ≤ (buf.length : Nat) := by
  have := UvarintLoop_count_le buf 0 0 0
  simpa [Varint, Uvarint] using this

/-- The decoding loop never returns from a set of positions that lie before the
length byte, can be sliced, and are closed under the step of the loop. -/
theorem readLoop_diverges (buff : List Nat) (lb : Int) (S : Int → Prop)
    (hS : ∀ pos, S pos → pos < lb - 1 ∧
      ∃ s, sliceFrom buff pos = some s ∧ S (pos + (Varint s).2)) :
    ∀ (fuel : Nat) (pos : Int) (acc : List Int), S pos →
      readLoop buff lb fuel pos acc = .outOfFuel := by
  intro fuel
  induction fuel with
  | zero =>
    intro pos acc hpos
    simp only [readLoop, if_pos (hS pos hpos).1]
  | succ f ih =>
    intro pos acc hpos
    obtain ⟨hlt, s, hs, hnext⟩ := hS pos hpos
    simp only [readLoop, if_pos hlt, hs]
    exact ih _ _ hnext

/-- The decoding loop returns when every decode from a position at or after
`start` and before the length byte consumes at least one byte: within `n`
iterations when at most `n` bytes are left before the length byte. -/
theorem readLoop_progress (buff : List Nat) (start : Int)
    (hprog : ∀ pos : Nat, start ≤ pos → (pos : Int) < (buff.length : Nat) - 1 →
      1 ≤ (Varint (buff.drop pos)).2) :
    ∀ (n : Nat) (pos : Int) (acc : List Int), 0 ≤ pos → start ≤ pos →
      pos ≤ (buff.length : Nat) → ((buff.length : Nat) : Int) - 1 - pos ≤ n →
      ∃ vs, vs.length ≤ acc.length + n ∧
        ∀ fuel, n ≤ fuel → readLoop buff (buff.length : Nat) fuel pos acc = .ok vs := by
  intro n
  induction n with
  | zero =>
    intro pos acc _ _ _ hrem
    have hc : ¬ (pos < ((buff.length : Nat) : Int) - 1) := by omega
    refine ⟨acc, by omega, ?_⟩
    intro fuel _
    cases fuel with
    | zero => simp only [readLoop, if_neg hc]
    | succ f => simp only [readLoop, if_neg hc]
  | succ n ih =>
    intro pos acc h0 hstart hle hrem
    by_cases hc : pos < ((buff.length : Nat) : Int) - 1
    · have hslice : sliceFrom buff pos = some (buff.drop pos.toNat) := by
        unfold sliceFrom
        rw [if_pos ⟨h0, hle⟩]
      have hpos : ((pos.toNat : Nat) : Int) = pos := Int.toNat_of_nonneg h0
      have h1 := hprog pos.toNat (by omega) (by omega)
      have h2 := Varint_count_le (buff.drop pos.toNat)
      rw [List.length_drop] at h2
      obtain ⟨vs, hlen, hrun⟩ := ih (pos + (Varint (buff.drop pos.toNat)).2)
        (acc ++ [(Varint (buff.drop pos.toNat)).1]) (by omega) (by omega) (by omega) (by omega)
      refine ⟨vs, by simp only [List.length_append, List.length_singleton] at hlen; omega, ?_⟩
      intro fuel hfuel
      cases fuel with
      | zero => omega
      | succ f =>
        simp only [readLoop, if_pos hc, hslice]
        exact hrun f (by omega)
    · refine ⟨acc, by omega, ?_⟩
      intro fuel _
      cases fuel with
      | zero => simp only [readLoop, if_neg hc]
      | succ f => simp only [readLoop, if_neg hc]

/-- A seeding loop that ran to the end met only partition indexes inside the
counter array. -/
theorem seedOffsets_success (offs : List StoredOffset) : ∀ (slice seeded : List Int),
    seedOffsets slice offs = .ok (seeded, none) →
    ∀ so ∈ offs, 0 ≤ so.partitionID ∧ so.partitionID < slice.length := by
  induction offs with
  | nil => intro slice seeded _ so hso; simp at hso
  | cons so0 rest ih =>
    intro slice seeded h so hso
    simp only [seedOffsets] at h
    by_cases hge : so0.partitionID ≥ slice.length
    · rw [if_pos hge] at h
      simp at h
    · rw [if_neg hge] at h
      cases hi : index slice so0.partitionID with
      | none => rw [hi] at h; cases h
      | some c =>
        rw [hi] at h
        simp only at h
        have hb := (index_eq_some_iff slice so0.partitionID c).mp hi
        rcases List.mem_cons.mp hso with heq | hmem
        · subst heq
          exact ⟨hb.1, by omega⟩
        · have := ih _ seeded h so hmem
          rw [List.length_set] at this
          exact this

/-- The last stored offset of a partition that has an entry exists and is the
offset of one of its entries. -/
theorem lastStored_of_entry (offs : List StoredOffset) (so : StoredOffset) (hso : so ∈ offs) :
    ∃ last, lastStored offs so.partitionID = some last ∧
      StoredOffset.mk so.partitionID last ∈ offs := by
  induction offs with
  | nil => simp at hso
  | cons so0 rest ih =>
    simp only [lastStored]
    cases hl : lastStored rest so.partitionID with
    | some v =>
      have hin : ∀ (l : List StoredOffset) (p w : Int), lastStored l p = some w →
          StoredOffset.mk p w ∈ l := by
        intro l
        induction l with
        | nil => intro p w hw; simp [lastStored] at hw
        | cons a l ihl =>
          intro p w hw
          simp only [lastStored] at hw
          cases hl' : lastStored l p with
          | some w' =>
            rw [hl'] at hw
            simp only [Option.some.injEq] at hw
            subst hw
            exact List.mem_cons_of_mem _ (ihl p w' hl')
          | none =>
            rw [hl'] at hw
            simp only at hw
            split at hw
            · next hap =>
              simp only [Option.some.injEq] at hw
              subst hw hap
              exact List.mem_cons_self _ _
            · cases hw
      exact ⟨v, rfl, List.mem_cons_of_mem _ (hin rest _ v hl)⟩
    | none =>
      rcases List.mem_cons.mp hso with heq | hmem
      · subst heq
        exact ⟨so.offset, by simp, List.mem_cons_self _ _⟩
      · obtain ⟨last, hlast, _⟩ := ih hmem
        rw [hl] at hlast
        cases hlast

/-- What a topic loop of `Start` that ran to the end has done: topics it was not
given keep their entry; for every topic it was given the loader answered, and
every partition with a stored offset has the counter "last stored offset of the
partition plus one" in int64 arithmetic. -/
theorem startLoop_success (loader : Int → Except Error (List StoredOffset))
    (topics : List TopicInfo) : ∀ (m m' : TopicOffsets),
    startLoop loader m topics = .ok (m', none) →
    (∀ t, t ∉ topics.map (fun ti => ti.TopicID) → lookup t m' = lookup t m) ∧
    ∀ ti ∈ topics, ∃ offs, loader ti.TopicID = .ok offs ∧
      ∀ so ∈ offs, ∃ last, lastStored offs so.partitionID = some last ∧
        counter m' ti.TopicID so.partitionID = some (wrapInt64 (last + 1)) := by
  induction topics with
  | nil =>
    intro m m' h
    simp only [startLoop, Result.ok.injEq, Prod.mk.injEq, and_true] at h
    subst h
    exact ⟨fun _ _ => rfl, fun ti hti => by simp at hti⟩
  | cons ti rest ih =>
    intro m m' h
    simp only [startLoop] at h
    cases hmk : makeSlice ti.PartitionCount with
    | none => rw [hmk] at h; cases h
    | some slice =>
      rw [hmk] at h
      simp only at h
      cases hld : loader ti.TopicID with
      | error err => rw [hld] at h; simp at h
      | ok offs =>
        rw [hld] at h
        simp only at h
        cases hsd : seedOffsets slice offs with
        | panicked => rw [hsd] at h; cases h
        | outOfFuel => rw [hsd] at h; cases h
        | ok pr =>
          obtain ⟨seeded, e⟩ := pr
          rw [hsd] at h
          cases e with
          | some err => simp at h
          | none =>
            simp only at h
            obtain ⟨hframe, hfacts⟩ := ih _ m' h
            have hslice : slice = List.replicate ti.PartitionCount.toNat 0 ∧
                0 ≤ ti.PartitionCount := by
              unfold makeSlice at hmk
              split at hmk
              · cases hmk
              · simp only [Option.some.injEq] at hmk
                exact ⟨hmk.symm, by omega⟩
            constructor
            · intro t ht
              simp only [List.map_cons, List.mem_cons, not_or] at ht
              rw [hframe t ht.2, lookup_insert, if_neg (Ne.symm ht.1), lookup_insert,
                if_neg (Ne.symm ht.1)]
            · intro ti' hti'
              rcases List.mem_cons.mp hti' with heq | hmem
              · subst heq
                by_cases hdup : ti'.TopicID ∈ rest.map (fun ti => ti.TopicID)
                · obtain ⟨ti2, hti2, hid⟩ := List.mem_map.mp hdup
                  obtain ⟨offs2, hld2, hfact2⟩ := hfacts ti2 hti2
                  rw [hid] at hld2 hfact2
                  exact ⟨offs2, hld2, hfact2⟩
                · refine ⟨offs, hld, ?_⟩
                  intro so hso
                  obtain ⟨last, hlast, _⟩ := lastStored_of_entry offs so hso
                  refine ⟨last, hlast, ?_⟩
                  have hin := seedOffsets_success offs slice seeded hsd
                  obtain ⟨seeded2, hsd2, _, hval⟩ := seedOffsets_ok offs slice hin
                  rw [hsd] at hsd2
                  simp only [Result.ok.injEq, Prod.mk.injEq, and_true] at hsd2
                  subst hsd2
                  obtain ⟨h0, h1⟩ := hin so hso
                  have hidx : index slice so.partitionID = some 0 := by
                    rw [hslice.1] at h1 ⊢
                    rw [List.length_replicate] at h1
                    exact index_replicate _ _ h0 h1
                  have := hval so.partitionID 0 hidx
                  rw [hlast] at this
                  unfold counter
                  rw [hframe ti'.TopicID hdup, lookup_insert, if_pos rfl]
                  exact this
              · exact hfacts ti' hmem

theorem encodedSize_bounds (values : List Int) :
    values.length ≤ encodedSize values ∧ encodedSize values ≤ 10 * values.length := by
  induction values with
  | nil => simp [encodedSize, encodings]
  | cons v rest ih =>
    have hv := AppendVarint_length v
    unfold encodedSize at ih ⊢
    rw [encodings_cons]
    simp only [List.length_append, List.length_cons]
    omega

/-! ## Claims about the value-metadata codec -/

/-- C1. Read round trip: for every buffer and every list of int64 values whose
concatenated signed varint encoding is at most 255 bytes long, appending succeeds
and `ReadValueMetadata` on the result (given at least one unit of loop fuel per
value) returns exactly the values, in the original order. -/
theorem C1_read_round_trip (buf : List Nat) (values : List Int) (fuel : Nat)
    (hv : ∀ v ∈ values, isInt64 v) (hs : encodedSize values ≤ 255)
    (hf : values.length ≤ fuel) :
    ∃ out, AppendValueMetadata buf values = .ok out ∧
      ReadValueMetadata fuel out = .ok values := by
  refine ⟨buf ++ encodings values ++ [encodedSize values], ?_, ?_⟩
  · rw [AppendValueMetadata_eq, if_neg (by omega)]
  · unfold ReadValueMetadata
    simp only [index_last, startPos_of_append]
    rw [readLoop_encodings values buf (encodedSize values) fuel [] hv hf]
    simp

/-- Witness of C1 at a buffer that itself ends in a trailer-like byte. -/
theorem C1_read_round_trip_witness :
    (∀ v ∈ [300, -1, 0, -9223372036854775808], isInt64 v) ∧
    encodedSize [300, -1, 0, -9223372036854775808] ≤ 255 ∧
    ∃ out, AppendValueMetadata [7, 255, 1] [300, -1, 0, -9223372036854775808] = .ok out ∧
      ReadValueMetadata 4 out = .ok [300, -1, 0, -9223372036854775808] :=
  ⟨by decide, by decide,
    C1_read_round_trip [7, 255, 1] [300, -1, 0, -9223372036854775808] 4
      (by decide) (by decide) (by decide)⟩

/-- C2. Remove round trip: for every buffer and every list of values whose varint
encoding is at most 255 bytes long, `RemoveValueMetadata` applied to the result of
`AppendValueMetadata` returns the original buffer, byte for byte. -/
theorem C2_remove_round_trip (buf : List Nat) (values : List Int)
    (hs : encodedSize values ≤ 255) :
    ∃ out, AppendValueMetadata buf values = .ok out ∧ RemoveValueMetadata out = .ok buf := by
  refine ⟨buf ++ encodings values ++ [encodedSize values], ?_, ?_⟩
  · rw [AppendValueMetadata_eq, if_neg (by omega)]
  · unfold RemoveValueMetadata
    simp only [index_last, startPos_of_append]
    unfold sliceTo
    have h2 : (0 : Int) ≤ (buf.length : Nat) ∧
        ((buf.length : Nat) : Int) ≤ ((buf ++ encodings values ++ [encodedSize values]).length : Nat) := by
      simp only [List.length_append]
      push_cast
      omega
    rw [if_pos h2, Int.toNat_ofNat]
    simp only [List.append_assoc, List.take_left]

/-- Witness of C2 at the empty buffer. -/
theorem C2_remove_round_trip_witness :
    encodedSize [300, -1] ≤ 255 ∧
    ∃ out, AppendValueMetadata [] [300, -1] = .ok out ∧ RemoveValueMetadata out = .ok [] :=
  ⟨by decide, C2_remove_round_trip [] [300, -1] (by decide)⟩

/-- C3. Trailer layout: when the encodings total `s ≤ 255` bytes,
`AppendValueMetadata` returns the buffer, followed by the signed varint encodings
of the values in order, followed by one byte equal to `s`; the result has length
`len(buf) + s + 1`, keeps `buf` as a prefix, and with no values it is `buf`
followed by the single byte 0. -/
theorem C3_trailer_layout (buf : List Nat) (values : List Int)
    (hs : encodedSize values ≤ 255) :
    ∃ out, AppendValueMetadata buf values = .ok out ∧
      out = buf ++ (values.map (fun v => AppendVarint [] v)).flatten ++ [encodedSize values] ∧
      encodedSize values = ((values.map (fun v => (AppendVarint [] v).length)).sum) ∧
      out.length = buf.length + encodedSize values + 1 ∧
      buf <+: out ∧
      (values = [] → out = buf ++ [0]) := by
  refine ⟨buf ++ encodings values ++ [encodedSize values], ?_, rfl, ?_, ?_, ?_, ?_⟩
  · rw [AppendValueMetadata_eq, if_neg (by omega)]
  · simp [encodedSize, encodings, List.length_flatten, Function.comp_def]
  · simp only [encodedSize, List.length_append, List.length_singleton]
  · exact ⟨encodings values ++ [encodedSize values], by simp⟩
  · intro h
    subst h
    simp [encodedSize, encodings]

/-- Witness of C3: two values of two and one bytes give the length byte 3. -/
theorem C3_trailer_layout_witness :
    encodedSize [300, -1] ≤ 255 ∧
    ∃ out, AppendValueMetadata [9, 9] [300, -1] = .ok out ∧
      out = [9, 9] ++ ([300, -1].map (fun v => AppendVarint [] v)).flatten ++ [encodedSize [300, -1]] ∧
      encodedSize [300, -1] = (([300, -1].map (fun v => (AppendVarint [] v).length)).sum) ∧
      out.length = [9, 9].length + encodedSize [300, -1] + 1 ∧
      [9, 9] <+: out ∧
      (([300, -1] : List Int) = [] → out = [9, 9] ++ [0]) :=
  ⟨by decide, C3_trailer_layout [9, 9] [300, -1] (by decide)⟩

/-- C4. `AppendValueMetadata` panics if and only if the total byte length of the
varint encodings of the values exceeds 255, and it returns a buffer if and only
if that length is at most 255. -/
theorem C4_append_panics_iff (buf : List Nat) (values : List Int) :
    (AppendValueMetadata buf values = .panicked ↔ 255 < encodedSize values) ∧
    ((∃ out, AppendValueMetadata buf values = .ok out) ↔ encodedSize values ≤ 255) := by
  rw [AppendValueMetadata_eq]
  by_cases h : encodedSize values > 255
  · rw [if_pos h]
    simp
    omega
  · rw [if_neg h]
    simp
    omega

/-- C5. `ReadAndRemoveValueMetadata` agrees with the two separate operations: at
every fuel it returns `(values, rest)` exactly when `ReadValueMetadata` returns
`values` and `RemoveValueMetadata` returns `rest`, and it fails (panics or does
not terminate) exactly when one of the two fails, with the failure of
`ReadValueMetadata`. -/
theorem C5_read_and_remove_agrees (fuel : Nat) (buf : List Nat) :
    (∀ vs r, ReadAndRemoveValueMetadata fuel buf = .ok (vs, r) ↔
      (ReadValueMetadata fuel buf = .ok vs ∧ RemoveValueMetadata buf = .ok r)) ∧
    ((∀ p, ReadAndRemoveValueMetadata fuel buf ≠ .ok p) ↔
      ((∀ vs, ReadValueMetadata fuel buf ≠ .ok vs) ∨ (∀ r, RemoveValueMetadata buf ≠ .ok r))) ∧
    (ReadAndRemoveValueMetadata fuel buf = .panicked ↔ ReadValueMetadata fuel buf = .panicked) ∧
    (ReadAndRemoveValueMetadata fuel buf = .outOfFuel ↔ ReadValueMetadata fuel buf = .outOfFuel) := by
  unfold ReadAndRemoveValueMetadata ReadValueMetadata RemoveValueMetadata
  cases hidx : index buf ((buf.length : Int) - 1) with
  | none => simp [hidx]
  | some last =>
    have hb := index_some_length hidx
    simp only [hidx]
    by_cases hneg : (buf.length : Int) - (last : Int) - 1 < 0
    · have hs := sliceTo_neg buf _ hneg
      rcases readLoop_neg_pos buf (buf.length : Int) fuel _ [] (by omega) hneg with h | h
      · simp [h, hs]
      · simp [h, hs]
    · have hs := sliceTo_isSome buf ((buf.length : Int) - (last : Int) - 1) (by omega) (by omega)
      cases hr : readLoop buf (buf.length : Int) fuel ((buf.length : Int) - (last : Int) - 1) [] with
      | ok vs => simp [hs]
      | panicked => simp [hs]
      | outOfFuel => simp [hs]

/-! ## Claims about the offsets cache -/

/-- C6. `GetOffsets` reserves ranges in request order: on a started cache whose
counters are int64 values, for a non-empty list of requests that each have
`NumOffsets ≥ 1` and name a loaded topic and a partition inside its counter array,
`GetOffsets` returns a list of the same length; element `i` is the counter of
request `i` advanced (int64 arithmetic) by the `NumOffsets` of the earlier
requests naming the same counter, which is the value that counter has after
`GetOffsets` on requests `0..i-1`; afterwards every counter has grown by the sum
of `NumOffsets` of the requests naming it, and the cache is still started. -/
theorem C6_getOffsets_in_request_order (o : OffsetsCache) (infos : List GetOffsetInfo)
    (hstarted : o.started = true) (hne : infos ≠ [])
    (hvalid : ∀ r ∈ infos, 1 ≤ r.NumOffsets ∧
      ∃ a, lookup r.TopicID o.topicOffsets = some a ∧ 0 ≤ r.PartitionID ∧ r.PartitionID < a.length)
    (hint : countersInt64 o.topicOffsets) :
    ∃ o' res, GetOffsets o infos = .ok (o', .ok res) ∧
      res.length = infos.length ∧
      (∀ i r c, infos[i]? = some r → counter o.topicOffsets r.TopicID r.PartitionID = some c →
        res[i]? = some (wrapInt64 (c + sumFor (infos.take i) r.TopicID r.PartitionID))) ∧
      (∀ i r, infos[i]? = some r → ∃ oi e, GetOffsets o (infos.take i) = .ok (oi, e) ∧
        res[i]? = counter oi.topicOffsets r.TopicID r.PartitionID) ∧
      (∀ t p c, counter o.topicOffsets t p = some c →
        counter o'.topicOffsets t p = some (wrapInt64 (c + sumFor infos t p))) ∧
      o'.started = true := by
  have hvalid' : ∀ r ∈ infos, 1 ≤ r.NumOffsets ∧
      ∃ c, counter o.topicOffsets r.TopicID r.PartitionID = some c :=
    fun r hr => ⟨(hvalid r hr).1, counter_of_valid _ r (hvalid r hr).2⟩
  obtain ⟨o', res, hget, hlen, hres, hcnt, hst⟩ := GetOffsets_ok o infos hstarted hne hvalid' hint
  refine ⟨o', res, hget, hlen, hres, ?_, ?_, hst⟩
  · intro i r hi
    have hmem : r ∈ infos := List.getElem?_mem hi
    obtain ⟨_, c, hc⟩ := hvalid' r hmem
    rw [hres i r c hi hc]
    cases i with
    | zero =>
      refine ⟨o, .error .emptyInfos, ?_, ?_⟩
      · simp [GetOffsets]
      · rw [hc, List.take_zero, sumFor_nil, add_zero, wrapInt64_of_isInt64 c (hint _ _ c hc)]
    | succ k =>
      have hilt : k + 1 < infos.length := by
        rcases List.getElem?_eq_some_iff.mp hi with ⟨hl, _⟩
        exact hl
      have hne' : infos.take (k + 1) ≠ [] := by
        intro h
        have := congrArg List.length h
        simp only [List.length_take, List.length_nil] at this
        omega
      have hvalidp : ∀ r' ∈ infos.take (k + 1), 1 ≤ r'.NumOffsets ∧
          ∃ c', counter o.topicOffsets r'.TopicID r'.PartitionID = some c' :=
        fun r' hr' => hvalid' r' (List.mem_of_mem_take hr')
      obtain ⟨oi, resi, hgeti, _, _, hcnti, _⟩ :=
        GetOffsets_ok o (infos.take (k + 1)) hstarted hne' hvalidp hint
      refine ⟨oi, .ok resi, hgeti, ?_⟩
      rw [hcnti, hc]
      rfl
  · intro t p c hc
    rw [hcnt, hc]
    rfl

/-- Witness of C6: two of the three requests name partition 0 of topic 7, whose
counter is 5; they get the bases 5 and 5 + 3. -/
theorem C6_getOffsets_in_request_order_witness :
    ∃ o' res, GetOffsets ⟨true, [(7, [5, 0])]⟩ [⟨7, 0, 3⟩, ⟨7, 1, 1⟩, ⟨7, 0, 2⟩] = .ok (o', .ok res) ∧
      res.length = [GetOffsetInfo.mk 7 0 3, ⟨7, 1, 1⟩, ⟨7, 0, 2⟩].length ∧
      (∀ i r c, [GetOffsetInfo.mk 7 0 3, ⟨7, 1, 1⟩, ⟨7, 0, 2⟩][i]? = some r →
        counter [(7, [5, 0])] r.TopicID r.PartitionID = some c →
        res[i]? = some (wrapInt64 (c + sumFor ([GetOffsetInfo.mk 7 0 3, ⟨7, 1, 1⟩, ⟨7, 0, 2⟩].take i)
          r.TopicID r.PartitionID))) ∧
      (∀ i r, [GetOffsetInfo.mk 7 0 3, ⟨7, 1, 1⟩, ⟨7, 0, 2⟩][i]? = some r →
        ∃ oi e, GetOffsets ⟨true, [(7, [5, 0])]⟩
            ([GetOffsetInfo.mk 7 0 3, ⟨7, 1, 1⟩, ⟨7, 0, 2⟩].take i) = .ok (oi, e) ∧
          res[i]? = counter oi.topicOffsets r.TopicID r.PartitionID) ∧
      (∀ t p c, counter [(7, [5, 0])] t p = some c →
        counter o'.topicOffsets t p
          = some (wrapInt64 (c + sumFor [GetOffsetInfo.mk 7 0 3, ⟨7, 1, 1⟩, ⟨7, 0, 2⟩] t p))) ∧
      o'.started = true :=
  C6_getOffsets_in_request_order ⟨true, [(7, [5, 0])]⟩ [⟨7, 0, 3⟩, ⟨7, 1, 1⟩, ⟨7, 0, 2⟩]
    rfl (by decide)
    (by
      intro r hr
      simp only [List.mem_cons, List.mem_singleton, List.not_mem_nil, or_false] at hr
      rcases hr with rfl | rfl | rfl <;>
        exact ⟨by decide, [5, 0], by decide, by decide, by decide⟩)
    (countersInt64_of_forall _ (by decide))

/-- C7. Disjoint, gap-free ranges: for one (topic, partition) whose counter starts
at 0 and `K` reservations of sizes `n_i ≥ 1` with total below `2^63`, taking
effect in any order, every reservation succeeds, the `K` returned half-open
ranges `[r_i, r_i + n_i)` are pairwise disjoint and their union is exactly
`[0, n_1 + ... + n_K)`. -/
theorem C7_disjoint_gap_free_ranges (o : OffsetsCache) (t p : Int) (sizes order : List Int)
    (hst : o.started = true) (hc : counter o.topicOffsets t p = some 0)
    (hpos : ∀ n ∈ sizes, 1 ≤ n) (hsum : sizes.sum < 9223372036854775808)
    (hperm : order.Perm sizes) :
    ∃ (o' : OffsetsCache) (rs : List Int),
      runCalls o (order.map (fun n => [GetOffsetInfo.mk t p n]))
        = .ok (o', rs.map (fun r => Except.ok [r])) ∧
      rs.length = order.length ∧
      (∀ (i j : Nat) (ri ni rj nj : Int), i ≠ j → rs[i]? = some ri → order[i]? = some ni →
        rs[j]? = some rj → order[j]? = some nj →
        ∀ x : Int, ¬ ((ri ≤ x ∧ x < ri + ni) ∧ (rj ≤ x ∧ x < rj + nj))) ∧
      (∀ x : Int, (0 ≤ x ∧ x < sizes.sum) ↔
        ∃ (i : Nat) (ri ni : Int),
          rs[i]? = some ri ∧ order[i]? = some ni ∧ ri ≤ x ∧ x < ri + ni) := by
  have hpos' : ∀ n ∈ order, 1 ≤ n := fun n hn => hpos n (hperm.mem_iff.mp hn)
  have hsumeq : order.sum = sizes.sum := hperm.sum_eq
  obtain ⟨o', rs, hrun, hlen, hrs, _, _⟩ :=
    runCalls_single t p order o 0 hst hc hpos' (by omega) (by omega)
  have hstart : ∀ i ri, rs[i]? = some ri → i < order.length ∧ ri = (order.take i).sum := by
    intro i ri hi
    have hlt : i < order.length := by
      rcases List.getElem?_eq_some_iff.mp hi with ⟨hl, _⟩
      omega
    have := hrs i hlt
    rw [hi] at this
    simp only [zero_add, Option.some.injEq] at this
    exact ⟨hlt, this⟩
  refine ⟨o', rs, hrun, hlen, ?_, ?_⟩
  · intro i j ri ni rj nj hij hri hni hrj hnj x hx
    obtain ⟨hi, hri'⟩ := hstart i ri hri
    obtain ⟨hj, hrj'⟩ := hstart j rj hrj
    rcases Nat.lt_or_gt_of_ne hij with h | h
    · have := running_sum_mono order i j ni hpos' h (by omega) hni
      omega
    · have := running_sum_mono order j i nj hpos' h (by omega) hnj
      omega
  · intro x
    rw [← hsumeq]
    have hcov := running_sum_cover order 0 x hpos'
    simp only [zero_add] at hcov
    rw [hcov]
    constructor
    · rintro ⟨i, n, hi, hlo, hhi⟩
      have hlt : i < order.length := by
        rcases List.getElem?_eq_some_iff.mp hi with ⟨hl, _⟩
        exact hl
      refine ⟨i, (order.take i).sum, n, ?_, hi, hlo, hhi⟩
      have := hrs i hlt
      simpa using this
    · rintro ⟨i, ri, ni, hri, hni, hlo, hhi⟩
      obtain ⟨_, hri'⟩ := hstart i ri hri
      subst hri'
      exact ⟨i, ni, hni, hlo, hhi⟩

/-- Witness of C7: three reservations of sizes 2, 5 and 1 taking effect in the
order 5, 1, 2. -/
theorem C7_disjoint_gap_free_ranges_witness :
    ∃ (o' : OffsetsCache) (rs : List Int),
      runCalls ⟨true, [(7, [0])]⟩ ([5, 1, 2].map (fun n => [GetOffsetInfo.mk 7 0 n]))
        = .ok (o', rs.map (fun r => Except.ok [r])) ∧
      rs.length = [(5 : Int), 1, 2].length ∧
      (∀ (i j : Nat) (ri ni rj nj : Int), i ≠ j → rs[i]? = some ri → [(5 : Int), 1, 2][i]? = some ni →
        rs[j]? = some rj → [(5 : Int), 1, 2][j]? = some nj →
        ∀ x : Int, ¬ ((ri ≤ x ∧ x < ri + ni) ∧ (rj ≤ x ∧ x < rj + nj))) ∧
      (∀ x : Int, (0 ≤ x ∧ x < [(2 : Int), 5, 1].sum) ↔
        ∃ (i : Nat) (ri ni : Int),
          rs[i]? = some ri ∧ [(5 : Int), 1, 2][i]? = some ni ∧ ri ≤ x ∧ x < ri + ni) :=
  C7_disjoint_gap_free_ranges ⟨true, [(7, [0])]⟩ 7 0 [2, 5, 1] [5, 1, 2]
    rfl (by decide) (by decide) (by decide) (by decide)

/-- C8. Recovery seeding: if the cache is not started, the topic provider returns
topics with distinct IDs and non-negative `PartitionCount`, and for each topic the
loader returns at most one `StoredOffset` per partition, each with partition
index in `[0, PartitionCount)`, then `Start` succeeds and the cache is started;
the counter of every partition `p` of every returned topic is `o + 1` (int64
arithmetic, which is exactly `o + 1` for every `o` below the largest int64) when
the loader returned `StoredOffset{p, o}` and 0 when it returned none for `p`; and
`GetOffsets` for `p` with `NumOffsets = 1` then returns that counter. -/
theorem C8_recovery_seeding (o : OffsetsCache) (topics : List TopicInfo)
    (loader : Int → Except Error (List StoredOffset))
    (hns : o.started = false)
    (hnd : (topics.map (fun ti => ti.TopicID)).Nodup)
    (hvalid : ∀ ti ∈ topics, 0 ≤ ti.PartitionCount ∧ ∃ offs, loader ti.TopicID = .ok offs ∧
      (offs.map (fun so => so.partitionID)).Nodup ∧
      ∀ so ∈ offs, 0 ≤ so.partitionID ∧ so.partitionID < ti.PartitionCount) :
    ∃ o', Start (.ok topics) loader o = .ok (o', none) ∧ o'.started = true ∧
      ∀ ti ∈ topics, ∀ offs, loader ti.TopicID = .ok offs →
        ∀ p, 0 ≤ p → p < ti.PartitionCount →
          (∀ off, StoredOffset.mk p off ∈ offs →
            counter o'.topicOffsets ti.TopicID p = some (wrapInt64 (off + 1)) ∧
            (isInt64 off → off < 9223372036854775807 →
              counter o'.topicOffsets ti.TopicID p = some (off + 1)) ∧
            ∃ o2, GetOffsets o' [⟨ti.TopicID, p, 1⟩] = .ok (o2, .ok [wrapInt64 (off + 1)])) ∧
          ((∀ so ∈ offs, so.partitionID ≠ p) →
            counter o'.topicOffsets ti.TopicID p = some 0 ∧
            ∃ o2, GetOffsets o' [⟨ti.TopicID, p, 1⟩] = .ok (o2, .ok [0])) := by
  have hvalid' : ∀ ti ∈ topics, 0 ≤ ti.PartitionCount ∧ ∃ offs, loader ti.TopicID = .ok offs ∧
      ∀ so ∈ offs, 0 ≤ so.partitionID ∧ so.partitionID < ti.PartitionCount := by
    intro ti hti
    obtain ⟨h0, offs, hl, _, hin⟩ := hvalid ti hti
    exact ⟨h0, offs, hl, hin⟩
  obtain ⟨m', hrun, hcnt, _⟩ := startLoop_ok loader topics o.topicOffsets hnd hvalid'
  refine ⟨{ started := true, topicOffsets := m' }, ?_, rfl, ?_⟩
  · unfold Start
    simp only [hns, Bool.false_eq_true, if_false, hrun]
  · intro ti hti offs hload p hp0 hp1
    have hc := hcnt ti hti offs hload p hp0 hp1
    obtain ⟨_, offs', hload', hnd', _⟩ := hvalid ti hti
    rw [hload] at hload'
    cases hload'
    constructor
    · intro off hmem
      rw [lastStored_of_mem offs p off hnd' hmem] at hc
      simp only at hc
      refine ⟨hc, ?_, ?_⟩
      · intro hoff hlt
        rw [hc, wrapInt64_of_isInt64]
        unfold isInt64 at hoff ⊢
        omega
      · exact GetOffsets_single _ ti.TopicID p 1 _ rfl (by decide) hc (wrapInt64_isInt64 _)
    · intro hnone
      rw [lastStored_none offs p hnone] at hc
      simp only at hc
      exact ⟨hc, GetOffsets_single _ ti.TopicID p 1 0 rfl (by decide) hc (by decide)⟩

/-- Witness of C8: topic 7 has three partitions and a stored offset 41 for
partition 1; topic 8 has one partition and nothing stored. -/
theorem C8_recovery_seeding_witness :
    ∃ o', Start (.ok [⟨7, 3⟩, ⟨8, 1⟩])
        (fun t => if t = 7 then .ok [⟨1, 41⟩] else .ok []) NewOffsetsCache = .ok (o', none) ∧
      o'.started = true ∧
      ∀ ti ∈ [TopicInfo.mk 7 3, ⟨8, 1⟩], ∀ offs,
        (fun t : Int => if t = 7 then (Except.ok [StoredOffset.mk 1 41] : Except Error _)
          else .ok []) ti.TopicID = .ok offs →
        ∀ p, 0 ≤ p → p < ti.PartitionCount →
          (∀ off, StoredOffset.mk p off ∈ offs →
            counter o'.topicOffsets ti.TopicID p = some (wrapInt64 (off + 1)) ∧
            (isInt64 off → off < 9223372036854775807 →
              counter o'.topicOffsets ti.TopicID p = some (off + 1)) ∧
            ∃ o2, GetOffsets o' [⟨ti.TopicID, p, 1⟩] = .ok (o2, .ok [wrapInt64 (off + 1)])) ∧
          ((∀ so ∈ offs, so.partitionID ≠ p) →
            counter o'.topicOffsets ti.TopicID p = some 0 ∧
            ∃ o2, GetOffsets o' [⟨ti.TopicID, p, 1⟩] = .ok (o2, .ok [0])) :=
  C8_recovery_seeding NewOffsetsCache [⟨7, 3⟩, ⟨8, 1⟩]
    (fun t => if t = 7 then .ok [⟨1, 41⟩] else .ok []) rfl (by decide)
    (by
      intro ti hti
      simp only [List.mem_cons, List.mem_singleton, List.not_mem_nil, or_false] at hti
      rcases hti with rfl | rfl
      · exact ⟨by decide, [⟨1, 41⟩], by decide, by decide, by decide⟩
      · exact ⟨by decide, [], by decide, by decide, by decide⟩)

/-- C9 (the code departs from the claim). A loaded `StoredOffset` with a negative
partition index makes `Start` panic on the slice assignment instead of returning
an error, while an index equal to `PartitionCount` is rejected with the
out-of-range error and leaves the cache not started. -/
theorem C9_start_negative_partition_panics :
    Start (.ok [⟨7, 3⟩]) (fun _ => .ok [⟨-1, 41⟩]) NewOffsetsCache = .panicked ∧
    Start (.ok [⟨7, 3⟩]) (fun _ => .ok [⟨3, 41⟩]) NewOffsetsCache
      = .ok (⟨false, [(7, [0, 0, 0])]⟩, some (.partitionOffsetOutOfRange 3)) := by
  constructor <;> decide

/-- C10, as stated, fails: on a started cache a request with `NumOffsets = 0` for
a topic without counter array is the first request that does not succeed, and
`GetOffsets` panics instead of returning the unknown-topic error. -/
theorem C10_unknown_topic_counterexample :
    ¬ (∀ (o : OffsetsCache) (pre post : List GetOffsetInfo) (r : GetOffsetInfo),
      o.started = true →
      (∀ q ∈ pre, 1 ≤ q.NumOffsets ∧ ∃ a, lookup q.TopicID o.topicOffsets = some a ∧
        0 ≤ q.PartitionID ∧ q.PartitionID < a.length) →
      lookup r.TopicID o.topicOffsets = none →
      ∃ o', GetOffsets o (pre ++ r :: post) = .ok (o', .error (.unknownTopicID r.TopicID))) := by
  intro h
  obtain ⟨o', ho'⟩ := h ⟨true, []⟩ [] [] ⟨7, 0, 0⟩ rfl (by simp) rfl
  have hp : GetOffsets ⟨true, []⟩ ([] ++ [GetOffsetInfo.mk 7 0 0]) = .panicked := by decide
  rw [hp] at ho'
  cases ho'

/-- C10 (amended). `GetOffsets` returns the error "empty infos" for the empty
list, started or not; "not started" for a non-empty list on a cache that is not
started; and, on a started cache, "unknown topic id" when the requests before the
failing one are well formed and the failing request has `NumOffsets ≥ 1` and
names a topic without counter array. In each case no offsets are returned. -/
theorem C10_getOffsets_errors (o : OffsetsCache) :
    GetOffsets o [] = .ok (o, .error .emptyInfos) ∧
    (∀ infos, infos ≠ [] → o.started = false →
      GetOffsets o infos = .ok (o, .error .notStarted)) ∧
    (∀ (pre post : List GetOffsetInfo) (r : GetOffsetInfo),
      o.started = true →
      (∀ q ∈ pre, 1 ≤ q.NumOffsets ∧ ∃ a, lookup q.TopicID o.topicOffsets = some a ∧
        0 ≤ q.PartitionID ∧ q.PartitionID < a.length) →
      1 ≤ r.NumOffsets →
      lookup r.TopicID o.topicOffsets = none →
      ∃ o', GetOffsets o (pre ++ r :: post) = .ok (o', .error (.unknownTopicID r.TopicID))) := by
  refine ⟨by simp [GetOffsets], ?_, ?_⟩
  · intro infos hne hns
    unfold GetOffsets
    have h0 : ¬ (infos.length = 0) := fun h => hne (List.length_eq_zero.mp h)
    rw [if_neg h0]
    simp [hns]
  · intro pre post r hst hvalid hn hnone
    obtain ⟨m1, res1, hrun, hshape⟩ :=
      getOffsetsLoop_append pre o.topicOffsets 0
        (List.replicate (pre ++ r :: post).length 0) hvalid
    have hnone1 : lookup r.TopicID m1 = none := by
      have hs := hshape r.TopicID
      rw [hnone] at hs
      simpa using hs
    have hget : getOffset m1 r = .ok (m1, .error (.unknownTopicID r.TopicID)) := by
      unfold getOffset
      rw [if_neg (by omega)]
      simp only [hnone1]
    refine ⟨{ o with topicOffsets := m1 }, ?_⟩
    unfold GetOffsets
    have h0 : ¬ ((pre ++ r :: post).length = 0) := by simp
    rw [if_neg h0]
    simp only [hst, Bool.not_true, Bool.false_eq_true, if_false, hrun, getOffsetsLoop, hget]

/-- Witness of C10 (amended): the first request is served, the second names the
unknown topic 9. -/
theorem C10_getOffsets_errors_witness :
    GetOffsets ⟨true, [(7, [5, 0])]⟩ [] = .ok (⟨true, [(7, [5, 0])]⟩, .error .emptyInfos) ∧
    (∀ infos, infos ≠ [] → (OffsetsCache.mk true [(7, [5, 0])]).started = false →
      GetOffsets ⟨true, [(7, [5, 0])]⟩ infos = .ok (⟨true, [(7, [5, 0])]⟩, .error .notStarted)) ∧
    (∀ (pre post : List GetOffsetInfo) (r : GetOffsetInfo),
      (OffsetsCache.mk true [(7, [5, 0])]).started = true →
      (∀ q ∈ pre, 1 ≤ q.NumOffsets ∧
        ∃ a, lookup q.TopicID (OffsetsCache.mk true [(7, [5, 0])]).topicOffsets = some a ∧
        0 ≤ q.PartitionID ∧ q.PartitionID < a.length) →
      1 ≤ r.NumOffsets →
      lookup r.TopicID (OffsetsCache.mk true [(7, [5, 0])]).topicOffsets = none →
      ∃ o', GetOffsets ⟨true, [(7, [5, 0])]⟩ (pre ++ r :: post)
        = .ok (o', .error (.unknownTopicID r.TopicID))) :=
  C10_getOffsets_errors ⟨true, [(7, [5, 0])]⟩

/-! ## Claims about the life cycle and the failures of the offsets cache -/

/-- C11. `Start` is idempotent: a cache on which `Start` has succeeded is started;
every further `Start` on it, whatever the topic provider and the loader would
answer, returns success and the same cache; this stays so after `GetOffsets`
calls have advanced counters; and neither `Start` nor `GetOffsets` takes a
started cache back to not started. -/
theorem C11_start_idempotent (o0 o : OffsetsCache) (provider0 : Except Error (List TopicInfo))
    (loader0 : Int → Except Error (List StoredOffset))
    (hs : Start provider0 loader0 o0 = .ok (o, none)) :
    o.started = true ∧
    (∀ provider loader, Start provider loader o = .ok (o, none)) ∧
    (∀ infos o' r, GetOffsets o infos = .ok (o', r) →
      o'.started = true ∧ ∀ provider loader, Start provider loader o' = .ok (o', none)) ∧
    (∀ s : OffsetsCache, s.started = true →
      (∀ provider loader s' e, Start provider loader s = .ok (s', e) → s'.started = true) ∧
      (∀ infos s' r, GetOffsets s infos = .ok (s', r) → s'.started = true)) := by
  have hstarted : o.started = true := by
    unfold Start at hs
    by_cases h0 : o0.started = true
    · rw [if_pos h0] at hs
      simp only [Result.ok.injEq, Prod.mk.injEq, and_true] at hs
      rw [← hs]; exact h0
    · rw [if_neg h0] at hs
      cases provider0 with
      | error err => simp at hs
      | ok topicInfos =>
        simp only at hs
        cases hl : startLoop loader0 o0.topicOffsets topicInfos with
        | panicked => rw [hl] at hs; cases hs
        | outOfFuel => rw [hl] at hs; cases hs
        | ok pr =>
          obtain ⟨m, e⟩ := pr
          rw [hl] at hs
          cases e with
          | some err => simp at hs
          | none =>
            simp only [Result.ok.injEq, Prod.mk.injEq, and_true] at hs
            rw [← hs]
  refine ⟨hstarted, fun provider loader => Start_started o provider loader hstarted, ?_, ?_⟩
  · intro infos o' r h
    have hst' : o'.started = true := by
      rw [(GetOffsets_effect o o' infos r h).1]; exact hstarted
    exact ⟨hst', fun provider loader => Start_started o' provider loader hst'⟩
  · intro s hs'
    constructor
    · intro provider loader s' e h
      rw [Start_started s provider loader hs'] at h
      simp only [Result.ok.injEq, Prod.mk.injEq] at h
      rw [← h.1]; exact hs'
    · intro infos s' r h
      rw [(GetOffsets_effect s s' infos r h).1]; exact hs'

/-- Witness of C11: the cache produced by a successful `Start` on a new cache. -/
theorem C11_start_idempotent_witness :
    (OffsetsCache.mk true [(7, [0, 42, 0])]).started = true ∧
    (∀ provider loader, Start provider loader ⟨true, [(7, [0, 42, 0])]⟩
      = .ok (⟨true, [(7, [0, 42, 0])]⟩, none)) ∧
    (∀ infos o' r, GetOffsets ⟨true, [(7, [0, 42, 0])]⟩ infos = .ok (o', r) →
      o'.started = true ∧ ∀ provider loader, Start provider loader o' = .ok (o', none)) ∧
    (∀ s : OffsetsCache, s.started = true →
      (∀ provider loader s' e, Start provider loader s = .ok (s', e) → s'.started = true) ∧
      (∀ infos s' r, GetOffsets s infos = .ok (s', r) → s'.started = true)) :=
  C11_start_idempotent NewOffsetsCache ⟨true, [(7, [0, 42, 0])]⟩ (.ok [⟨7, 3⟩])
    (fun _ => .ok [⟨1, 41⟩]) (by decide)

/-- C12. A non-positive `NumOffsets` is fatal: on a started cache, when the
requests before request `i` are well formed and request `i` has `NumOffsets < 1`,
`GetOffsets` panics, whatever topic request `i` names (known or unknown) and
whatever follows it. -/
theorem C12_nonpositive_numOffsets_panics (o : OffsetsCache) (pre post : List GetOffsetInfo)
    (r : GetOffsetInfo) (hst : o.started = true)
    (hvalid : ∀ q ∈ pre, 1 ≤ q.NumOffsets ∧ ∃ a, lookup q.TopicID o.topicOffsets = some a ∧
      0 ≤ q.PartitionID ∧ q.PartitionID < a.length)
    (hn : r.NumOffsets < 1) :
    GetOffsets o (pre ++ r :: post) = .panicked := by
  unfold GetOffsets
  have h0 : ¬ ((pre ++ r :: post).length = 0) := by simp
  rw [if_neg h0]
  simp only [hst, Bool.not_true, Bool.false_eq_true, if_false]
  rw [getOffsetsLoop_panics pre post r o.topicOffsets 0 _ hvalid hn]

/-- Witness of C12: the second request has `NumOffsets = 0` and names a topic
that is not loaded. -/
theorem C12_nonpositive_numOffsets_panics_witness :
    GetOffsets ⟨true, [(7, [5, 0])]⟩ ([⟨7, 0, 3⟩] ++ ⟨9, 0, 0⟩ :: [⟨7, 1, 1⟩]) = .panicked :=
  C12_nonpositive_numOffsets_panics ⟨true, [(7, [5, 0])]⟩ [⟨7, 0, 3⟩] [⟨7, 1, 1⟩] ⟨9, 0, 0⟩ rfl
    (by
      intro q hq
      simp only [List.mem_singleton] at hq
      subst hq
      exact ⟨by decide, [5, 0], by decide, by decide, by decide⟩)
    (by decide)

/-- C13, as stated, fails: on a started cache a request with `NumOffsets = 0` makes
`GetOffsets` panic; no error value is returned. -/
theorem C13_error_value_counterexample :
    ¬ (∀ (o : OffsetsCache) (infos : List GetOffsetInfo),
      (∃ q ∈ infos, q.NumOffsets < 1) →
      ∃ o' e, GetOffsets o infos = .ok (o', .error e)) := by
  intro h
  obtain ⟨o', e, he⟩ := h ⟨true, [(7, [5, 0])]⟩ [⟨7, 0, 0⟩] ⟨⟨7, 0, 0⟩, by simp, by decide⟩
  have hp : GetOffsets ⟨true, [(7, [5, 0])]⟩ [⟨7, 0, 0⟩] = .panicked := by decide
  rw [hp] at he
  cases he

/-- C13 (amended). A request list containing a request with `NumOffsets < 1` is
never served offsets; on a cache that is not started `GetOffsets` returns the
error "not started" for it; on a started cache `GetOffsets` panics when the
requests before such a request are well formed. -/
theorem C13_nonpositive_never_served (o : OffsetsCache) (infos : List GetOffsetInfo)
    (hq : ∃ q ∈ infos, q.NumOffsets < 1) :
    (∀ o' res, GetOffsets o infos ≠ .ok (o', .ok res)) ∧
    (o.started = false → GetOffsets o infos = .ok (o, .error .notStarted)) ∧
    (o.started = true → ∀ (pre : List GetOffsetInfo) (r : GetOffsetInfo)
        (post : List GetOffsetInfo), infos = pre ++ r :: post →
      (∀ q ∈ pre, 1 ≤ q.NumOffsets ∧ ∃ a, lookup q.TopicID o.topicOffsets = some a ∧
        0 ≤ q.PartitionID ∧ q.PartitionID < a.length) →
      r.NumOffsets < 1 → GetOffsets o infos = .panicked) := by
  obtain ⟨q, hqmem, hqn⟩ := hq
  have hne : infos ≠ [] := List.ne_nil_of_mem hqmem
  have h0 : ¬ (infos.length = 0) := fun h => hne (List.length_eq_zero.mp h)
  refine ⟨?_, ?_, ?_⟩
  · intro o' res h
    obtain ⟨_, k, _, hvalid, _, _, _, hend⟩ := GetOffsets_effect o o' infos (.ok res) h
    rcases hend with ⟨out, _, hk, _, _⟩ | ⟨hr, _⟩ | ⟨hr, _⟩ | ⟨q', _, _, _, hr, _⟩
    · rw [hk, List.take_length] at hvalid
      have := (hvalid q hqmem).1
      omega
    · cases hr
    · cases hr
    · cases hr
  · intro hns
    unfold GetOffsets
    rw [if_neg h0]
    simp [hns]
  · intro hst pre r post hinfos hvalid hn
    subst hinfos
    unfold GetOffsets
    rw [if_neg h0]
    simp only [hst, Bool.not_true, Bool.false_eq_true, if_false]
    rw [getOffsetsLoop_panics pre post r o.topicOffsets 0 _ hvalid hn]

/-- Witness of C13 (amended) at the list of the counterexample. -/
theorem C13_nonpositive_never_served_witness :
    (∀ o' res, GetOffsets ⟨true, [(7, [5, 0])]⟩ [⟨7, 0, 0⟩] ≠ .ok (o', .ok res)) ∧
    ((OffsetsCache.mk true [(7, [5, 0])]).started = false →
      GetOffsets ⟨true, [(7, [5, 0])]⟩ [⟨7, 0, 0⟩]
        = .ok (⟨true, [(7, [5, 0])]⟩, .error .notStarted)) ∧
    ((OffsetsCache.mk true [(7, [5, 0])]).started = true →
      ∀ (pre : List GetOffsetInfo) (r : GetOffsetInfo) (post : List GetOffsetInfo),
      [GetOffsetInfo.mk 7 0 0] = pre ++ r :: post →
      (∀ q ∈ pre, 1 ≤ q.NumOffsets ∧
        ∃ a, lookup q.TopicID (OffsetsCache.mk true [(7, [5, 0])]).topicOffsets = some a ∧
        0 ≤ q.PartitionID ∧ q.PartitionID < a.length) →
      r.NumOffsets < 1 → GetOffsets ⟨true, [(7, [5, 0])]⟩ [⟨7, 0, 0⟩] = .panicked) :=
  C13_nonpositive_never_served ⟨true, [(7, [5, 0])]⟩ [⟨7, 0, 0⟩]
    ⟨⟨7, 0, 0⟩, by simp, by decide⟩

/-- C14, as stated, fails for `Start`: a `Start` that failed at its second topic
leaves the counter 42 of the first topic in a cache that is not started, and the
next `Start`, with nothing stored for that partition, sets the same counter to 0. -/
theorem C14_start_reseeds_counterexample :
    Start (.ok [⟨7, 1⟩, ⟨8, 1⟩]) (fun t => if t = 7 then .ok [⟨0, 41⟩] else .ok [⟨1, 0⟩])
        NewOffsetsCache
      = .ok (⟨false, [(7, [42]), (8, [0])]⟩, some (.partitionOffsetOutOfRange 1)) ∧
    ¬ (∀ (o o' : OffsetsCache) (provider : Except Error (List TopicInfo))
        (loader : Int → Except Error (List StoredOffset)) (e : Option Error) (t p c c' : Int),
      Start provider loader o = .ok (o', e) →
      counter o.topicOffsets t p = some c → counter o'.topicOffsets t p = some c' → c ≤ c') := by
  refine ⟨by decide, ?_⟩
  intro h
  have := h ⟨false, [(7, [42]), (8, [0])]⟩ ⟨true, [(7, [0]), (8, [0])]⟩
    (.ok [⟨7, 1⟩, ⟨8, 1⟩]) (fun _ => .ok []) none 7 0 42 0 (by decide) (by decide) (by decide)
  omega

/-- C14 (amended). Counters are never decremented by `GetOffsets` or by `Start` on
a started cache: such a `Start` returns the cache unchanged, and a returning
`GetOffsets` call, successful or failing, on int64 counters has served a prefix of
requests with `NumOffsets ≥ 1`; every counter ends as its old value plus the
`NumOffsets` of the served requests naming it (int64 arithmetic), which is at
least the old value when the addition stays in the int64 range. -/
theorem C14_counters_never_decremented (o : OffsetsCache) :
    (o.started = true → ∀ provider loader, Start provider loader o = .ok (o, none)) ∧
    (∀ infos o' r, GetOffsets o infos = .ok (o', r) → countersInt64 o.topicOffsets →
      ∃ k, k ≤ infos.length ∧ (∀ q ∈ infos.take k, 1 ≤ q.NumOffsets) ∧
        ∀ t p c, counter o.topicOffsets t p = some c →
          counter o'.topicOffsets t p = some (wrapInt64 (c + sumFor (infos.take k) t p)) ∧
          0 ≤ sumFor (infos.take k) t p ∧
          (c + sumFor (infos.take k) t p < 9223372036854775808 →
            counter o'.topicOffsets t p = some (c + sumFor (infos.take k) t p) ∧
            c ≤ c + sumFor (infos.take k) t p)) := by
  refine ⟨fun hst provider loader => Start_started o provider loader hst, ?_⟩
  intro infos o' r h hint
  obtain ⟨_, k, hk, hvalid, _, _, hcnt, _⟩ := GetOffsets_effect o o' infos r h
  have hpos : ∀ q ∈ infos.take k, 1 ≤ q.NumOffsets := fun q hq => (hvalid q hq).1
  refine ⟨k, hk, hpos, ?_⟩
  intro t p c hc
  have hsum := sumFor_nonneg (infos.take k) t p hpos
  have hval : counter o'.topicOffsets t p
      = some (wrapInt64 (c + sumFor (infos.take k) t p)) := by
    rw [hcnt hint t p, hc]; rfl
  refine ⟨hval, hsum, ?_⟩
  intro hlt
  have hci := hint t p c hc
  have hin : isInt64 (c + sumFor (infos.take k) t p) := by
    unfold isInt64 at hci ⊢
    omega
  rw [hval, wrapInt64_of_isInt64 _ hin]
  exact ⟨rfl, by omega⟩

/-- Witness of C14 (amended) on a started cache with two counters. -/
theorem C14_counters_never_decremented_witness :
    ((OffsetsCache.mk true [(7, [5, 0])]).started = true →
      ∀ provider loader, Start provider loader ⟨true, [(7, [5, 0])]⟩
        = .ok (⟨true, [(7, [5, 0])]⟩, none)) ∧
    (∀ infos o' r, GetOffsets ⟨true, [(7, [5, 0])]⟩ infos = .ok (o', r) →
      countersInt64 (OffsetsCache.mk true [(7, [5, 0])]).topicOffsets →
      ∃ k, k ≤ infos.length ∧ (∀ q ∈ infos.take k, 1 ≤ q.NumOffsets) ∧
        ∀ t p c, counter (OffsetsCache.mk true [(7, [5, 0])]).topicOffsets t p = some c →
          counter o'.topicOffsets t p = some (wrapInt64 (c + sumFor (infos.take k) t p)) ∧
          0 ≤ sumFor (infos.take k) t p ∧
          (c + sumFor (infos.take k) t p < 9223372036854775808 →
            counter o'.topicOffsets t p = some (c + sumFor (infos.take k) t p) ∧
            c ≤ c + sumFor (infos.take k) t p)) :=
  C14_counters_never_decremented ⟨true, [(7, [5, 0])]⟩

/-- C17, as stated, fails: the first request is served, the second names the
unknown topic 9; `GetOffsets` returns the error and the counter of the first
request stays advanced from 5 to 8. -/
theorem C17_all_or_nothing_counterexample :
    GetOffsets ⟨true, [(7, [5, 0])]⟩ [⟨7, 0, 3⟩, ⟨9, 0, 1⟩]
      = .ok (⟨true, [(7, [8, 0])]⟩, .error (.unknownTopicID 9)) ∧
    ¬ (∀ (o o' : OffsetsCache) (infos : List GetOffsetInfo) (e : Error),
      GetOffsets o infos = .ok (o', .error e) →
      ∀ t p, counter o'.topicOffsets t p = counter o.topicOffsets t p) := by
  refine ⟨by decide, ?_⟩
  intro h
  have := h ⟨true, [(7, [5, 0])]⟩ ⟨true, [(7, [8, 0])]⟩ [⟨7, 0, 3⟩, ⟨9, 0, 1⟩]
    (.unknownTopicID 9) (by decide) 7 0
  revert this
  decide

/-- C17 (amended). When `GetOffsets` returns "empty infos" or "not started" the
cache is unchanged. When it returns "unknown topic id", it is for the first
request `k` that names a topic without counter array; the requests before it
were served: the counters they name stay advanced by their `NumOffsets` (int64
arithmetic) and every other counter is unchanged. -/
theorem C17_getOffsets_error_effect (o o' : OffsetsCache) (infos : List GetOffsetInfo)
    (e : Error) (h : GetOffsets o infos = .ok (o', .error e)) :
    (e = .emptyInfos ∧ infos = [] ∧ o' = o) ∨
    (e = .notStarted ∧ o.started = false ∧ o' = o) ∨
    (∃ k q, infos[k]? = some q ∧ e = .unknownTopicID q.TopicID ∧
      lookup q.TopicID o.topicOffsets = none ∧ 1 ≤ q.NumOffsets ∧
      (∀ q' ∈ infos.take k, 1 ≤ q'.NumOffsets ∧
        ∃ a, lookup q'.TopicID o.topicOffsets = some a ∧ 0 ≤ q'.PartitionID ∧
          q'.PartitionID < a.length) ∧
      (∀ t p, (∀ q' ∈ infos.take k, ¬ (q'.TopicID = t ∧ q'.PartitionID = p)) →
        counter o'.topicOffsets t p = counter o.topicOffsets t p) ∧
      (countersInt64 o.topicOffsets → ∀ t p c, counter o.topicOffsets t p = some c →
        counter o'.topicOffsets t p = some (wrapInt64 (c + sumFor (infos.take k) t p)))) := by
  obtain ⟨_, k, _, hvalid, _, hframe, hcnt, hend⟩ := GetOffsets_effect o o' infos _ h
  rcases hend with ⟨out, hr, _⟩ | ⟨hr, hnil, ho, _⟩ | ⟨hr, _, hns, ho, _⟩ | ⟨q, hq, hn, hnone, hr, _⟩
  · cases hr
  · cases hr
    exact Or.inl ⟨rfl, hnil, ho⟩
  · cases hr
    exact Or.inr (Or.inl ⟨rfl, hns, ho⟩)
  · cases hr
    refine Or.inr (Or.inr ⟨k, q, hq, rfl, hnone, hn, hvalid, hframe, ?_⟩)
    intro hint t p c hc
    rw [hcnt hint t p, hc]
    rfl

/-- Witness of C17 (amended) at the call of the counterexample. -/
theorem C17_getOffsets_error_effect_witness :
    (Error.unknownTopicID 9 = .emptyInfos ∧ [GetOffsetInfo.mk 7 0 3, ⟨9, 0, 1⟩] = [] ∧
      OffsetsCache.mk true [(7, [8, 0])] = ⟨true, [(7, [5, 0])]⟩) ∨
    (Error.unknownTopicID 9 = .notStarted ∧ (OffsetsCache.mk true [(7, [5, 0])]).started = false ∧
      OffsetsCache.mk true [(7, [8, 0])] = ⟨true, [(7, [5, 0])]⟩) ∨
    (∃ k q, [GetOffsetInfo.mk 7 0 3, ⟨9, 0, 1⟩][k]? = some q ∧
      Error.unknownTopicID 9 = .unknownTopicID q.TopicID ∧
      lookup q.TopicID (OffsetsCache.mk true [(7, [5, 0])]).topicOffsets = none ∧
      1 ≤ q.NumOffsets ∧
      (∀ q' ∈ [GetOffsetInfo.mk 7 0 3, ⟨9, 0, 1⟩].take k, 1 ≤ q'.NumOffsets ∧
        ∃ a, lookup q'.TopicID (OffsetsCache.mk true [(7, [5, 0])]).topicOffsets = some a ∧
          0 ≤ q'.PartitionID ∧ q'.PartitionID < a.length) ∧
      (∀ t p, (∀ q' ∈ [GetOffsetInfo.mk 7 0 3, ⟨9, 0, 1⟩].take k,
          ¬ (q'.TopicID = t ∧ q'.PartitionID = p)) →
        counter (OffsetsCache.mk true [(7, [8, 0])]).topicOffsets t p
          = counter (OffsetsCache.mk true [(7, [5, 0])]).topicOffsets t p) ∧
      (countersInt64 (OffsetsCache.mk true [(7, [5, 0])]).topicOffsets → ∀ t p c,
        counter (OffsetsCache.mk true [(7, [5, 0])]).topicOffsets t p = some c →
        counter (OffsetsCache.mk true [(7, [8, 0])]).topicOffsets t p
          = some (wrapInt64 (c + sumFor ([GetOffsetInfo.mk 7 0 3, ⟨9, 0, 1⟩].take k) t p)))) :=
  C17_getOffsets_error_effect ⟨true, [(7, [5, 0])]⟩ ⟨true, [(7, [8, 0])]⟩
    [⟨7, 0, 3⟩, ⟨9, 0, 1⟩] (.unknownTopicID 9) (by decide)

/-- C18. `GetOffsets` cannot fail on well-formed requests: on a started cache, for
a non-empty list in which every request has `NumOffsets ≥ 1`, a loaded topic and a
partition index inside that topic's counter array, `GetOffsets` neither panics nor
returns an error: it returns one offset per request. -/
theorem C18_getOffsets_total_on_well_formed (o : OffsetsCache) (infos : List GetOffsetInfo)
    (hst : o.started = true) (hne : infos ≠ [])
    (hvalid : ∀ q ∈ infos, 1 ≤ q.NumOffsets ∧ ∃ a, lookup q.TopicID o.topicOffsets = some a ∧
      0 ≤ q.PartitionID ∧ q.PartitionID < a.length) :
    ∃ o' res, GetOffsets o infos = .ok (o', .ok res) ∧ res.length = infos.length := by
  obtain ⟨m', out, hrun, hlen, _, _⟩ :=
    getOffsetsLoop_frame infos o.topicOffsets 0 (List.replicate infos.length 0) hvalid
  refine ⟨{ o with topicOffsets := m' }, out, ?_, by rw [hlen, List.length_replicate]⟩
  unfold GetOffsets
  have h0 : ¬ (infos.length = 0) := fun h => hne (List.length_eq_zero.mp h)
  rw [if_neg h0]
  simp only [hst, Bool.not_true, Bool.false_eq_true, if_false, hrun]

/-- Witness of C18: three requests, two of them for the same partition. -/
theorem C18_getOffsets_total_on_well_formed_witness :
    ∃ o' res, GetOffsets ⟨true, [(7, [5, 0]), (8, [1])]⟩ [⟨7, 0, 3⟩, ⟨8, 0, 1⟩, ⟨7, 0, 2⟩]
        = .ok (o', .ok res) ∧
      res.length = [GetOffsetInfo.mk 7 0 3, ⟨8, 0, 1⟩, ⟨7, 0, 2⟩].length :=
  C18_getOffsets_total_on_well_formed ⟨true, [(7, [5, 0]), (8, [1])]⟩
    [⟨7, 0, 3⟩, ⟨8, 0, 1⟩, ⟨7, 0, 2⟩] rfl (by decide)
    (by
      intro q hq
      simp only [List.mem_cons, List.mem_singleton, List.not_mem_nil, or_false] at hq
      rcases hq with rfl | rfl | rfl
      · exact ⟨by decide, [5, 0], by decide, by decide, by decide⟩
      · exact ⟨by decide, [1], by decide, by decide, by decide⟩
      · exact ⟨by decide, [5, 0], by decide, by decide, by decide⟩)

/-- C19. `GetOffsets` touches only the counters it is asked for: after a returning
call, successful or failing, every counter of a (topic, partition) pair that no
request of the call names has the value it had before, every topic has a counter
array after the call exactly when it had one before, of the same length, and the
started flag is unchanged. -/
theorem C19_getOffsets_frame (o o' : OffsetsCache) (infos : List GetOffsetInfo)
    (r : Except Error (List Int)) (h : GetOffsets o infos = .ok (o', r)) :
    (∀ t p, (∀ q ∈ infos, ¬ (q.TopicID = t ∧ q.PartitionID = p)) →
      counter o'.topicOffsets t p = counter o.topicOffsets t p) ∧
    (∀ t, (lookup t o'.topicOffsets).map List.length
      = (lookup t o.topicOffsets).map List.length) ∧
    o'.started = o.started := by
  obtain ⟨hst, k, _, _, hshape, hframe, _, _⟩ := GetOffsets_effect o o' infos r h
  refine ⟨?_, hshape, hst⟩
  intro t p hnot
  exact hframe t p (fun q hq => hnot q (List.mem_of_mem_take hq))

/-- Witness of C19 at a call that serves one request and then fails. -/
theorem C19_getOffsets_frame_witness :
    (∀ t p, (∀ q ∈ [GetOffsetInfo.mk 7 0 3, ⟨9, 0, 1⟩], ¬ (q.TopicID = t ∧ q.PartitionID = p)) →
      counter (OffsetsCache.mk true [(7, [8, 0])]).topicOffsets t p
        = counter (OffsetsCache.mk true [(7, [5, 0])]).topicOffsets t p) ∧
    (∀ t, (lookup t (OffsetsCache.mk true [(7, [8, 0])]).topicOffsets).map List.length
      = (lookup t (OffsetsCache.mk true [(7, [5, 0])]).topicOffsets).map List.length) ∧
    (OffsetsCache.mk true [(7, [8, 0])]).started = (OffsetsCache.mk true [(7, [5, 0])]).started :=
  C19_getOffsets_frame ⟨true, [(7, [5, 0])]⟩ ⟨true, [(7, [8, 0])]⟩ [⟨7, 0, 3⟩, ⟨9, 0, 1⟩]
    (.error (.unknownTopicID 9)) (by decide)

/-- C15, as stated, fails: `Start` on a new cache stores the counter array of
topic 7 in the map, then meets a stored offset for partition 3 of 3 and returns
the out-of-range error; the map after the call is not the map before it. -/
theorem C15_partial_state_counterexample :
    ¬ (∀ (o o' : OffsetsCache) (provider : Except Error (List TopicInfo))
        (loader : Int → Except Error (List StoredOffset)) (e : Error),
      Start provider loader o = .ok (o', some e) → o'.topicOffsets = o.topicOffsets) := by
  intro h
  have := h NewOffsetsCache ⟨false, [(7, [0, 0, 0])]⟩ (.ok [⟨7, 3⟩]) (fun _ => .ok [⟨3, 41⟩])
    (.partitionOffsetOutOfRange 3) (by decide)
  revert this
  decide

/-- C15 (amended). A failed `Start` leaves the cache not started, so that
`GetOffsets` keeps answering "not started" and hands out none of the counters the
failed call stored; and a `Start` that succeeds on a cache that is not started,
whatever its map holds, gives every topic the provider returns the counter array
the same call gives it on a new cache. -/
theorem C15_failed_start_not_started (o : OffsetsCache)
    (loader : Int → Except Error (List StoredOffset)) :
    (∀ provider o' e, Start provider loader o = .ok (o', some e) →
      o.started = false ∧ o'.started = false ∧
      ∀ infos, infos ≠ [] → GetOffsets o' infos = .ok (o', .error .notStarted)) ∧
    (o.started = false → ∀ topics o2,
      Start (.ok topics) loader NewOffsetsCache = .ok (o2, none) →
      ∃ o1, Start (.ok topics) loader o = .ok (o1, none) ∧ o1.started = true ∧
        ∀ ti ∈ topics, lookup ti.TopicID o1.topicOffsets = lookup ti.TopicID o2.topicOffsets) := by
  constructor
  · intro provider o' e h
    have hns : o.started = false := by
      cases hst : o.started with
      | false => rfl
      | true =>
        rw [Start_started o provider loader hst] at h
        simp at h
    have hns' : o'.started = false := by
      unfold Start at h
      simp only [hns, Bool.false_eq_true, if_false] at h
      cases provider with
      | error err =>
        simp only [Result.ok.injEq, Prod.mk.injEq] at h
        rw [← h.1]; exact hns
      | ok topicInfos =>
        simp only at h
        cases hl : startLoop loader o.topicOffsets topicInfos with
        | panicked => rw [hl] at h; cases h
        | outOfFuel => rw [hl] at h; cases h
        | ok pr =>
          obtain ⟨m, e'⟩ := pr
          rw [hl] at h
          cases e' with
          | none => simp at h
          | some err =>
            simp only [Result.ok.injEq, Prod.mk.injEq] at h
            rw [← h.1]
    refine ⟨hns, hns', ?_⟩
    intro infos hne
    unfold GetOffsets
    have h0 : ¬ (infos.length = 0) := fun hl => hne (List.length_eq_zero.mp hl)
    rw [if_neg h0]
    simp [hns']
  · intro hns topics o2 h2
    have hnew : NewOffsetsCache.started = false := rfl
    unfold Start at h2 ⊢
    simp only [hnew, hns, Bool.false_eq_true, if_false] at h2 ⊢
    rcases startLoop_indep loader topics o.topicOffsets NewOffsetsCache.topicOffsets
        (fun _ => False) (fun _ hf => hf.elim) with
      ⟨_, hp⟩ | ⟨_, hp⟩ | ⟨m', m0', e, h1, h0, hagree⟩
    · rw [hp] at h2; cases h2
    · rw [hp] at h2; cases h2
    · rw [h0] at h2
      cases e with
      | some err => simp at h2
      | none =>
        simp only [Result.ok.injEq, Prod.mk.injEq, and_true] at h2
        refine ⟨⟨true, m'⟩, by rw [h1], rfl, ?_⟩
        intro ti hti
        rw [← h2]
        exact hagree ti.TopicID (Or.inr ⟨rfl, List.mem_map_of_mem _ hti⟩)

/-- Witness of C15 (amended): the cache left by the failed `Start` of the
counterexample. -/
theorem C15_failed_start_not_started_witness :
    (∀ provider o' e, Start provider (fun _ => .ok [⟨1, 41⟩]) ⟨false, [(7, [0, 0, 0])]⟩
        = .ok (o', some e) →
      (OffsetsCache.mk false [(7, [0, 0, 0])]).started = false ∧ o'.started = false ∧
      ∀ infos, infos ≠ [] → GetOffsets o' infos = .ok (o', .error .notStarted)) ∧
    ((OffsetsCache.mk false [(7, [0, 0, 0])]).started = false → ∀ topics o2,
      Start (.ok topics) (fun _ => .ok [⟨1, 41⟩]) NewOffsetsCache = .ok (o2, none) →
      ∃ o1, Start (.ok topics) (fun _ => .ok [⟨1, 41⟩]) ⟨false, [(7, [0, 0, 0])]⟩
          = .ok (o1, none) ∧ o1.started = true ∧
        ∀ ti ∈ topics, lookup ti.TopicID o1.topicOffsets = lookup ti.TopicID o2.topicOffsets) :=
  C15_failed_start_not_started ⟨false, [(7, [0, 0, 0])]⟩ (fun _ => .ok [⟨1, 41⟩])

/-! ## More claims about the value-metadata codec -/

/-- C16. `RemoveValueMetadata` strips exactly the trailer named by the last byte:
for a non-empty buffer whose last byte `s` satisfies `s + 1 ≤ len(buf)` it returns
the first `len(buf) - s - 1` bytes; it panics exactly when the buffer is empty or
`s + 1 > len(buf)`; and the result does not depend on the content of the trailer:
whatever `s` bytes stand before the length byte `s`, the bytes before them come
back. -/
theorem C16_remove_strips_named_trailer (buf : List Nat) :
    (∀ s, buf.getLast? = some s → s + 1 ≤ buf.length →
      RemoveValueMetadata buf = .ok (buf.take (buf.length - s - 1))) ∧
    (RemoveValueMetadata buf = .panicked ↔
      (buf = [] ∨ ∃ s, buf.getLast? = some s ∧ s + 1 > buf.length)) ∧
    (∀ trailer : List Nat, RemoveValueMetadata (buf ++ trailer ++ [trailer.length]) = .ok buf) := by
  refine ⟨?_, ?_, ?_⟩
  · intro s hs hle
    unfold RemoveValueMetadata
    simp only [index_last_eq_getLast?, hs]
    rw [sliceTo_isSome buf _ (by omega) (by omega)]
    have htn : ((buf.length : Int) - (s : Int) - 1).toNat = buf.length - s - 1 := by omega
    rw [htn]
  · unfold RemoveValueMetadata
    simp only [index_last_eq_getLast?]
    cases hl : buf.getLast? with
    | none =>
      have : buf = [] := List.getLast?_eq_none_iff.mp hl
      simp [this]
    | some s =>
      have hne : buf ≠ [] := by
        intro h; rw [h] at hl; simp at hl
      simp only [Option.some.injEq, exists_eq_left', hne, false_or]
      by_cases hle : s + 1 ≤ buf.length
      · rw [sliceTo_isSome buf _ (by omega) (by omega)]
        simp
        omega
      · rw [sliceTo_neg buf _ (by omega)]
        simp
        omega
  · intro trailer
    unfold RemoveValueMetadata
    simp only [index_last]
    have hpos : (((buf ++ trailer ++ [trailer.length]).length : Nat) : Int)
        - ((trailer.length : Nat) : Int) - 1 = ((buf.length : Nat) : Int) := by
      simp only [List.length_append, List.length_singleton]
      push_cast
      omega
    rw [hpos, sliceTo_isSome _ _ (by omega)
      (by simp only [List.length_append, List.length_singleton]; push_cast; omega),
      Int.toNat_ofNat]
    simp only [List.append_assoc, List.take_left]

set_option maxRecDepth 100000 in
/-- C20, as stated, fails, in three ways, each on a framed buffer.
(1) The 21-byte buffer has last byte 10 and a trailer that is a ten-byte varint
whose last byte is 2: `binary.Varint` reports the overflow with the count -10,
the loop moves the read position back from 10 to 0, decodes the ten zero bytes
one by one and is at 10 again, for ever.
(2) The 129-byte buffer has last byte 128 and a trailer of 120 zero bytes and 8
bytes with the continuation bit set, as has the length byte: at position 120
`binary.Varint` returns the count 0 and the loop stays there for ever.
(3) The 12-byte buffer has last byte 11 and a trailer of 11 continuation bytes:
the count is -11 and the next slice expression `buff[-11:]` panics. -/
theorem C20_termination_counterexample :
    ([0, 0, 0, 0, 0, 0, 0, 0, 0, 0, 128, 128, 128, 128, 128, 128, 128, 128, 128, 2, 10]
      : List Nat).getLast? = some 10 ∧
    (∀ fuel, ReadValueMetadata fuel
      [0, 0, 0, 0, 0, 0, 0, 0, 0, 0, 128, 128, 128, 128, 128, 128, 128, 128, 128, 2, 10]
        = .outOfFuel) ∧
    (List.replicate 120 0 ++ List.replicate 8 128 ++ [128] : List Nat).getLast? = some 128 ∧
    (∀ fuel, ReadValueMetadata fuel (List.replicate 120 0 ++ List.replicate 8 128 ++ [128])
      = .outOfFuel) ∧
    (∀ fuel, ReadValueMetadata (fuel + 2)
      [128, 128, 128, 128, 128, 128, 128, 128, 128, 128, 128, 11] = .panicked) ∧
    ¬ (∀ (buf : List Nat) (s : Nat), buf.getLast? = some s → s + 1 ≤ buf.length →
      ∃ fuel vs, ReadValueMetadata fuel buf = .ok vs) := by
  have hstep : ∀ k : Nat, k ≤ 10 →
      0 ≤ (k : Int) + (Varint (List.drop k
        [0, 0, 0, 0, 0, 0, 0, 0, 0, 0, 128, 128, 128, 128, 128, 128, 128, 128, 128, 2, 10])).2 ∧
      (k : Int) + (Varint (List.drop k
        [0, 0, 0, 0, 0, 0, 0, 0, 0, 0, 128, 128, 128, 128, 128, 128, 128, 128, 128, 2, 10])).2
        ≤ 10 := by
    decide
  have hloop : ∀ fuel, ReadValueMetadata fuel
      [0, 0, 0, 0, 0, 0, 0, 0, 0, 0, 128, 128, 128, 128, 128, 128, 128, 128, 128, 2, 10]
        = .outOfFuel := by
    intro fuel
    have hidx : index
        ([0, 0, 0, 0, 0, 0, 0, 0, 0, 0, 128, 128, 128, 128, 128, 128, 128, 128, 128, 2, 10]
          : List Nat) (((21 : Nat) : Int) - 1) = some 10 := by decide
    unfold ReadValueMetadata
    simp only [List.length_cons, List.length_nil, Nat.reduceAdd, hidx]
    apply readLoop_diverges _ _ (fun pos => 0 ≤ pos ∧ pos ≤ 10)
    · rintro pos ⟨h0, h1⟩
      refine ⟨by omega, List.drop pos.toNat
        [0, 0, 0, 0, 0, 0, 0, 0, 0, 0, 128, 128, 128, 128, 128, 128, 128, 128, 128, 2, 10], ?_, ?_⟩
      · unfold sliceFrom
        rw [if_pos ⟨h0, by simp only [List.length_cons, List.length_nil]; omega⟩]
      · have := hstep pos.toNat (by omega)
        rw [Int.toNat_of_nonneg h0] at this
        exact this
    · constructor <;> decide
  have hstep2 : ∀ k : Nat, k ≤ 120 →
      0 ≤ (k : Int) + (Varint (List.drop k
        (List.replicate 120 0 ++ List.replicate 8 128 ++ [128]))).2 ∧
      (k : Int) + (Varint (List.drop k
        (List.replicate 120 0 ++ List.replicate 8 128 ++ [128]))).2 ≤ 120 := by
    decide
  have hloop2 : ∀ fuel, ReadValueMetadata fuel
      (List.replicate 120 0 ++ List.replicate 8 128 ++ [128]) = .outOfFuel := by
    intro fuel
    have hlen : (List.replicate 120 0 ++ List.replicate 8 128 ++ [128] : List Nat).length
        = 129 := by decide
    have hidx : index (List.replicate 120 0 ++ List.replicate 8 128 ++ [128] : List Nat)
        (((129 : Nat) : Int) - 1) = some 128 := by decide
    unfold ReadValueMetadata
    simp only [hlen, hidx]
    apply readLoop_diverges _ _ (fun pos => 0 ≤ pos ∧ pos ≤ 120)
    · rintro pos ⟨h0, h1⟩
      refine ⟨by omega, List.drop pos.toNat
        (List.replicate 120 0 ++ List.replicate 8 128 ++ [128]), ?_, ?_⟩
      · unfold sliceFrom
        rw [if_pos ⟨h0, by rw [hlen]; omega⟩]
      · have := hstep2 pos.toNat (by omega)
        rw [Int.toNat_of_nonneg h0] at this
        exact this
    · constructor <;> decide
  have hpanic : ∀ fuel, ReadValueMetadata (fuel + 2)
      [128, 128, 128, 128, 128, 128, 128, 128, 128, 128, 128, 11] = .panicked := by
    intro fuel
    have hidx : index ([128, 128, 128, 128, 128, 128, 128, 128, 128, 128, 128, 11] : List Nat)
        (((12 : Nat) : Int) - 1) = some 11 := by decide
    have hs0 : sliceFrom [128, 128, 128, 128, 128, 128, 128, 128, 128, 128, 128, 11]
        (((12 : Nat) : Int) - ((11 : Nat) : Int) - 1)
        = some [128, 128, 128, 128, 128, 128, 128, 128, 128, 128, 128, 11] := by decide
    have hv : Varint [128, 128, 128, 128, 128, 128, 128, 128, 128, 128, 128, 11]
        = (0, -11) := by decide
    have hs1 : sliceFrom [128, 128, 128, 128, 128, 128, 128, 128, 128, 128, 128, 11]
        (((12 : Nat) : Int) - ((11 : Nat) : Int) - 1 + -11) = none := by decide
    have hc0 : ((12 : Nat) : Int) - ((11 : Nat) : Int) - 1 < ((12 : Nat) : Int) - 1 := by decide
    have hc1 : ((12 : Nat) : Int) - ((11 : Nat) : Int) - 1 + -11 < ((12 : Nat) : Int) - 1 := by
      decide
    unfold ReadValueMetadata
    simp only [List.length_cons, List.length_nil, Nat.reduceAdd, hidx]
    simp only [readLoop, if_pos hc0, hs0, hv, if_pos hc1, hs1]
  refine ⟨by decide, hloop, by decide, hloop2, hpanic, ?_⟩
  intro h
  obtain ⟨fuel, vs, hvs⟩ := h
    [0, 0, 0, 0, 0, 0, 0, 0, 0, 0, 128, 128, 128, 128, 128, 128, 128, 128, 128, 2, 10] 10
    (by decide) (by decide)
  rw [hloop fuel] at hvs
  cases hvs

/-- C20 (amended). `ReadValueMetadata` terminates on a framed buffer when every
`binary.Varint` call on a slice that starts inside the trailer returns a positive
byte count: for a buffer with last byte `s` and `s + 1 ≤ len(buf)`, the loop then
advances by at least one byte per iteration and returns, without leaving the
buffer, after at most `s` iterations, with at most `s` values. -/
theorem C20_read_terminates_when_decodable (buf : List Nat) (s : Nat)
    (hlast : buf.getLast? = some s) (hframe : s + 1 ≤ buf.length)
    (hprog : ∀ pos : Nat, buf.length - s - 1 ≤ pos → pos + 1 < buf.length →
      1 ≤ (Varint (buf.drop pos)).2) :
    ∃ vs, vs.length ≤ s ∧ ∀ fuel, s ≤ fuel → ReadValueMetadata fuel buf = .ok vs := by
  obtain ⟨vs, hlen, hrun⟩ :=
    readLoop_progress buf (((buf.length : Nat) : Int) - (s : Int) - 1)
      (fun pos h1 h2 => hprog pos (by omega) (by omega))
      s (((buf.length : Nat) : Int) - (s : Int) - 1) [] (by omega) (le_refl _) (by omega)
      (by omega)
  refine ⟨vs, by simpa using hlen, ?_⟩
  intro fuel hfuel
  unfold ReadValueMetadata
  simp only [index_last_eq_getLast?, hlast]
  exact hrun fuel hfuel

/-- Witness of C20 (amended): a trailer of a two-byte and a one-byte varint; the
decode also makes progress from the middle of the two-byte varint. -/
theorem C20_read_terminates_when_decodable_witness :
    ∃ vs, vs.length ≤ 3 ∧ ∀ fuel, 3 ≤ fuel →
      ReadValueMetadata fuel [9, 9, 216, 4, 1, 3] = .ok vs :=
  C20_read_terminates_when_decodable [9, 9, 216, 4, 1, 3] 3 (by decide) (by decide)
    (by
      intro pos h1 h2
      simp only [List.length_cons, List.length_nil, Nat.reduceAdd] at h1 h2
      have hpos : pos = 2 ∨ pos = 3 ∨ pos = 4 := by omega
      rcases hpos with rfl | rfl | rfl <;> decide)

/-! ## Claims about recovery with repeated offsets and about the trailer capacity -/

/-- C21, as stated, fails when the loader lists a partition twice: with the stored
offsets 41 and then 5 for partition 0, a successful `Start` leaves the counter 6,
which is not greater than 41, and the next `GetOffsets` hands out 6. -/
theorem C21_repeated_partition_counterexample :
    Start (.ok [⟨7, 1⟩]) (fun _ => .ok [⟨0, 41⟩, ⟨0, 5⟩]) NewOffsetsCache
      = .ok (⟨true, [(7, [6])]⟩, none) ∧
    GetOffsets ⟨true, [(7, [6])]⟩ [⟨7, 0, 1⟩] = .ok (⟨true, [(7, [7])]⟩, .ok [6]) ∧
    ¬ (∀ (o' : OffsetsCache) (topics : List TopicInfo)
        (loader : Int → Except Error (List StoredOffset)) (ti : TopicInfo)
        (offs : List StoredOffset) (so : StoredOffset) (c : Int),
      Start (.ok topics) loader NewOffsetsCache = .ok (o', none) → ti ∈ topics →
      loader ti.TopicID = .ok offs → so ∈ offs → so.offset < 9223372036854775807 →
      counter o'.topicOffsets ti.TopicID so.partitionID = some c → so.offset < c) := by
  refine ⟨by decide, by decide, ?_⟩
  intro h
  have := h ⟨true, [(7, [6])]⟩ [⟨7, 1⟩] (fun _ => .ok [⟨0, 41⟩, ⟨0, 5⟩]) ⟨7, 1⟩
    [⟨0, 41⟩, ⟨0, 5⟩] ⟨0, 41⟩ 6 (by decide) (by decide) (by decide) (by decide) (by decide)
    (by decide)
  revert this
  decide

/-- C21 (amended). After a successful `Start` of a cache that was not started, for
every topic and every `StoredOffset{p, o}` the loader returned for it, the counter
of partition `p` is the offset of the last `StoredOffset` listed for `p` plus one
(int64 arithmetic). When that last offset is an int64 below `2^63 - 1` and `o` is
not above it, the counter is strictly greater than `o` and is what `GetOffsets`
hands out next for `p`; with one `StoredOffset` per partition the last offset is
`o` itself. -/
theorem C21_seeded_counter_is_last_stored (o o' : OffsetsCache) (topics : List TopicInfo)
    (loader : Int → Except Error (List StoredOffset)) (hns : o.started = false)
    (hs : Start (.ok topics) loader o = .ok (o', none)) :
    o'.started = true ∧
    ∀ ti ∈ topics, ∃ offs, loader ti.TopicID = .ok offs ∧
      ∀ so ∈ offs, ∃ last, lastStored offs so.partitionID = some last ∧
        StoredOffset.mk so.partitionID last ∈ offs ∧
        counter o'.topicOffsets ti.TopicID so.partitionID = some (wrapInt64 (last + 1)) ∧
        (isInt64 last → last < 9223372036854775807 → so.offset ≤ last →
          ∃ c, counter o'.topicOffsets ti.TopicID so.partitionID = some c ∧ so.offset < c ∧
            ∃ o2, GetOffsets o' [⟨ti.TopicID, so.partitionID, 1⟩] = .ok (o2, .ok [c])) ∧
        ((offs.map (fun s => s.partitionID)).Nodup → last = so.offset) := by
  unfold Start at hs
  simp only [hns, Bool.false_eq_true, if_false] at hs
  cases hl : startLoop loader o.topicOffsets topics with
  | panicked => rw [hl] at hs; cases hs
  | outOfFuel => rw [hl] at hs; cases hs
  | ok pr =>
    obtain ⟨m, e⟩ := pr
    rw [hl] at hs
    cases e with
    | some err => simp at hs
    | none =>
      simp only [Result.ok.injEq, Prod.mk.injEq, and_true] at hs
      subst hs
      obtain ⟨_, hfacts⟩ := startLoop_success loader topics o.topicOffsets m hl
      refine ⟨rfl, ?_⟩
      intro ti hti
      obtain ⟨offs, hld, hcnt⟩ := hfacts ti hti
      refine ⟨offs, hld, ?_⟩
      intro so hso
      obtain ⟨last, hlast, hc⟩ := hcnt so hso
      obtain ⟨last2, hlast2, hmem2⟩ := lastStored_of_entry offs so hso
      rw [hlast] at hlast2
      cases hlast2
      refine ⟨last, hlast, hmem2, hc, ?_, ?_⟩
      · intro hint hlt hle
        have hin : isInt64 (last + 1) := by
          unfold isInt64 at hint ⊢
          omega
        rw [wrapInt64_of_isInt64 _ hin] at hc
        refine ⟨last + 1, hc, by omega, ?_⟩
        exact GetOffsets_single _ ti.TopicID so.partitionID 1 (last + 1) rfl (by decide) hc hin
      · intro hnd
        have := lastStored_of_mem offs so.partitionID so.offset hnd hso
        rw [hlast] at this
        cases this
        rfl

/-- Witness of C21 (amended) at the loader answer of the counterexample. -/
theorem C21_seeded_counter_is_last_stored_witness :
    (OffsetsCache.mk true [(7, [6])]).started = true ∧
    ∀ ti ∈ [TopicInfo.mk 7 1], ∃ offs,
      (fun _ : Int => (Except.ok [StoredOffset.mk 0 41, ⟨0, 5⟩] : Except Error _)) ti.TopicID
        = .ok offs ∧
      ∀ so ∈ offs, ∃ last, lastStored offs so.partitionID = some last ∧
        StoredOffset.mk so.partitionID last ∈ offs ∧
        counter (OffsetsCache.mk true [(7, [6])]).topicOffsets ti.TopicID so.partitionID
          = some (wrapInt64 (last + 1)) ∧
        (isInt64 last → last < 9223372036854775807 → so.offset ≤ last →
          ∃ c, counter (OffsetsCache.mk true [(7, [6])]).topicOffsets ti.TopicID so.partitionID
              = some c ∧ so.offset < c ∧
            ∃ o2, GetOffsets ⟨true, [(7, [6])]⟩ [⟨ti.TopicID, so.partitionID, 1⟩]
              = .ok (o2, .ok [c])) ∧
        ((offs.map (fun s => s.partitionID)).Nodup → last = so.offset) :=
  C21_seeded_counter_is_last_stored NewOffsetsCache ⟨true, [(7, [6])]⟩ [⟨7, 1⟩]
    (fun _ => .ok [⟨0, 41⟩, ⟨0, 5⟩]) rfl (by decide)

/-- C22. Capacity of a trailer: the signed varint encoding of every value is
between 1 and 10 bytes long, both bounds being reached (by 0 and by the smallest
int64); so `AppendValueMetadata` returns a buffer for every list of at most 25
values, whatever the buffer, and panics on 26 copies of the smallest int64. -/
theorem C22_trailer_capacity :
    (∀ x : Int, 1 ≤ (AppendVarint [] x).length ∧ (AppendVarint [] x).length ≤ 10) ∧
    (AppendVarint [] 0).length = 1 ∧
    (AppendVarint [] (-9223372036854775808)).length = 10 ∧
    isInt64 (-9223372036854775808) ∧
    (∀ (buf : List Nat) (values : List Int), values.length ≤ 25 →
      ∃ out, AppendValueMetadata buf values = .ok out) ∧
    (∀ buf : List Nat,
      AppendValueMetadata buf (List.replicate 26 (-9223372036854775808)) = .panicked) := by
  refine ⟨AppendVarint_length, by decide, by decide, by decide, ?_, ?_⟩
  · intro buf values hlen
    have hb := (encodedSize_bounds values).2
    rw [AppendValueMetadata_eq, if_neg (by omega)]
    exact ⟨_, rfl⟩
  · intro buf
    have hten : (AppendVarint [] (-9223372036854775808)).length = 10 := by decide
    have hrep : ∀ n : Nat, encodedSize (List.replicate n (-9223372036854775808)) = 10 * n := by
      intro n
      induction n with
      | zero => simp [encodedSize, encodings]
      | succ k ih =>
        unfold encodedSize at ih ⊢
        rw [List.replicate_succ, encodings_cons, List.length_append, hten, ih]
        omega
    rw [AppendValueMetadata_eq, hrep 26, if_pos (by decide)]

end Tektite
